import Mathlib

/-!
A shallow embedding of the semantic-analysis pass (`src/check.c`) of the
checked repository: the two-pass checker of a statically typed systems
language.  Pure data (identifiers, interned types, typed expressions,
scopes) is modelled by inductive types; the mutually recursive checking
procedures are modelled as fuel-indexed functions returning `Option`
(`none` models the fatal diagnostics issued through `expect`/`assert`,
which abort the process, as well as crashes on NULL dereferences).
External collaborators that are not part of the sources
(`type_store.c`, `types.c`, `eval.c`, `scope.c`) are either passed in as
parameters (`Externals`) or modelled from the specification, as marked.

Machine pointers to interned types are modelled by the types themselves:
the store hash-conses types, so pointer equality coincides with
structural equality (spec section 3, "two structurally identical types
share the same `id` and the same pointer identity").  A NULL type
pointer is `Option.none`.  Scope identity (pointers to `struct scope`)
is modelled by numeric scope ids handed out by `scope_push`.
-/

/-- Identifiers: a name with an optional namespace chain
(`struct identifier`: `name` plus nullable `ns`). -/
inductive Identifier : Type where
  | base (name : String)
  | qual (name : String) (ns : Identifier)
deriving DecidableEq, Repr

/-- The name component of an identifier. -/
def Identifier.name : Identifier → String
  | .base n => n
  | .qual n _ => n

/-- The namespace component of an identifier (`ident.ns`, NULL as `none`). -/
def Identifier.ns : Identifier → Option Identifier
  | .base _ => none
  | .qual _ ns => some ns

/-- Source locations (`struct location`). -/
structure Loc : Type where
  path : String
  lineno : Int
  colno : Int
deriving DecidableEq, Repr

/-- `enum type_storage`. -/
inductive TypeStorage : Type where
  | voidS | boolS | nullS
  | i8 | i16 | i32 | i64 | intS
  | u8 | u16 | u32 | u64 | uintS
  | sizeS | uintptrS | charS | runeS
  | f32S | f64S | stringS
  | pointerS | sliceS | arrayS | structS | unionS | taggedS | enumS
  | functionS | aliasS
deriving DecidableEq, Repr

/-- `enum variadism`. -/
inductive Variadism : Type where
  | novari | cvari | hare
deriving DecidableEq, Repr

/-- `TYPE_CONST` bit of `type->flags`. -/
def TYPE_CONST : Nat := 1

/-- `PTR_NULLABLE` bit of `type->pointer.flags`. -/
def PTR_NULLABLE : Nat := 1

mutual
/-- Interned types (`struct type`).  Every constructor carries the
`flags` bitset; the storage-specific payload follows.  `length = none`
models `SIZE_UNDEFINED` array lengths.  Structural equality of `Ty`
models pointer equality of interned types (hash-consing). -/
inductive Ty : Type where
  | scalar (flags : Nat) (s : TypeStorage)
  | pointer (flags : Nat) (pflags : Nat) (referent : Ty)
  | sliceTy (flags : Nat) (member : Ty)
  | arrayTy (flags : Nat) (length : Option Nat) (member : Ty)
  | structTy (flags : Nat) (isUnion : Bool) (fields : StructFields)
  | taggedTy (flags : Nat) (members : TyList)
  | enumTy (flags : Nat) (values : List (String × Int))
  | funcTy (flags : Nat) (vari : Variadism) (params : TyList) (result : Ty)
  | aliasTy (flags : Nat) (ident : Identifier) (of : Ty)
deriving DecidableEq

/-- Linked list of struct/union fields (`struct struct_field`). -/
inductive StructFields : Type where
  | nil
  | cons (name : String) (ty : Ty) (rest : StructFields)
deriving DecidableEq

/-- Linked list of types (`struct type_tagged_union`, `struct type_func_param`). -/
inductive TyList : Type where
  | nil
  | cons (t : Ty) (rest : TyList)
deriving DecidableEq
end

/-- The storage class of a type (`type->storage`). -/
def Ty.storage : Ty → TypeStorage
  | .scalar _ s => s
  | .pointer .. => .pointerS
  | .sliceTy .. => .sliceS
  | .arrayTy .. => .arrayS
  | .structTy _ u _ => if u then .unionS else .structS
  | .taggedTy .. => .taggedS
  | .enumTy .. => .enumS
  | .funcTy .. => .functionS
  | .aliasTy .. => .aliasS

/-- `type->flags`. -/
def Ty.flags : Ty → Nat
  | .scalar f _ => f
  | .pointer f _ _ => f
  | .sliceTy f _ => f
  | .arrayTy f _ _ => f
  | .structTy f _ _ => f
  | .taggedTy f _ => f
  | .enumTy f _ => f
  | .funcTy f _ _ _ => f
  | .aliasTy f _ _ => f

/-- Modelled from the spec: `type_store_lookup_with_flags` (section 4.2,
type store interface, not part of the sources) returns the interned copy
of a type with the given flags. -/
def Ty.withFlags : Ty → Nat → Ty
  | .scalar _ s, f => .scalar f s
  | .pointer _ p r, f => .pointer f p r
  | .sliceTy _ m, f => .sliceTy f m
  | .arrayTy _ l m, f => .arrayTy f l m
  | .structTy _ u fs, f => .structTy f u fs
  | .taggedTy _ ms, f => .taggedTy f ms
  | .enumTy _ vs, f => .enumTy f vs
  | .funcTy _ v ps r, f => .funcTy f v ps r
  | .aliasTy _ i o, f => .aliasTy f i o

/-- `type->array.members`, also used for slice member types (the C union
shares the field between arrays and slices). -/
def Ty.array_members : Ty → Option Ty
  | .arrayTy _ _ m => some m
  | .sliceTy _ m => some m
  | _ => none

/-- `type->array.length` (`none` = `SIZE_UNDEFINED`). -/
def Ty.array_length : Ty → Option Nat
  | .arrayTy _ l _ => l
  | _ => none

/-- Modelled from the spec: `type_dealias` (section 4.2, not part of the
sources) unwraps transparent aliases. -/
def type_dealias : Ty → Ty
  | .aliasTy _ _ of => type_dealias of
  | t => t

/-- Modelled from the spec: `type_dereference` (section 4.2, not part of
the sources): a non-nullable pointer yields its referent, a nullable
pointer yields NULL (`none`, caller must diagnose), anything else is
returned unchanged. -/
def type_dereference (t : Ty) : Option Ty :=
  match t with
  | .pointer _ pflags referent =>
      if pflags &&& PTR_NULLABLE ≠ 0 then none else some referent
  | _ => some t

/-- Modelled from the spec: the `is_integer` classifier of section 4.2
(not part of the sources), keyed on the storage class. -/
def storage_is_integer : TypeStorage → Bool
  | .i8 | .i16 | .i32 | .i64 | .intS => true
  | .u8 | .u16 | .u32 | .u64 | .uintS => true
  | .sizeS | .uintptrS => true
  | _ => false

/-- Modelled from the spec: the `is_signed` classifier of section 4.2
(not part of the sources), keyed on the storage class. -/
def storage_is_signed : TypeStorage → Bool
  | .i8 | .i16 | .i32 | .i64 | .intS => true
  | .f32S | .f64S => true
  | _ => false

/-- `type_is_integer`. -/
def type_is_integer (t : Ty) : Bool := storage_is_integer t.storage

/-- `type_is_signed`. -/
def type_is_signed (t : Ty) : Bool := storage_is_signed t.storage

/-- Modelled from the spec: the `is_numeric` classifier of section 4.2
(not part of the sources). -/
def type_is_numeric (t : Ty) : Bool :=
  storage_is_integer t.storage || t.storage = .f32S || t.storage = .f64S

/-- Modelled from the spec: `get_field` (section 4.2): look a field up by
name, yielding its declared type, or `none`. -/
def struct_fields_get : StructFields → String → Option Ty
  | .nil, _ => none
  | .cons n t rest, key => if n = key then some t else struct_fields_get rest key

/-- `type_get_field` on a struct or union type. -/
def type_get_field (t : Ty) (key : String) : Option Ty :=
  match t with
  | .structTy _ _ fields => struct_fields_get fields key
  | _ => none

/-- Membership in a tagged union's member list, by interned identity
(`t->type->id == secondary->id`). -/
def TyList.containsTy : TyList → Ty → Bool
  | .nil, _ => false
  | .cons t rest, key => if t = key then true else TyList.containsTy rest key

def TyList.toList : TyList → List Ty
  | .nil => []
  | .cons t rest => t :: TyList.toList rest

/-- `&builtin_type_void`. -/
def builtin_type_void : Ty := .scalar 0 .voidS

/-- `&builtin_type_bool`. -/
def builtin_type_bool : Ty := .scalar 0 .boolS

/-- `&builtin_type_size`. -/
def builtin_type_size : Ty := .scalar 0 .sizeS

/-- `&builtin_type_str`. -/
def builtin_type_str : Ty := .scalar 0 .stringS

/-- `&builtin_type_const_str`. -/
def builtin_type_const_str : Ty := .scalar TYPE_CONST .stringS

/-- `builtin_type_for_storage(storage, false)`: the canonical builtin
singleton for a scalar storage class; NULL (`none`) for the composite
storages, which have no builtin singleton. -/
def builtin_type_for_storage : TypeStorage → Option Ty
  | .pointerS | .sliceS | .arrayS | .structS | .unionS | .taggedS
  | .enumS | .functionS | .aliasS => none
  | s => some (.scalar 0 s)

/-- `enum expr_type` (expression kind tags; also the kind recorded on a
scope by `scope->type`). -/
inductive ExprType : Type where
  | access | assertE | assign | binarithm | binding | breakE | continueE
  | call | cast | constant | deferE | forE | ifE | list | matchE
  | measure | returnE | slice | structE | switchE | unarithm
deriving DecidableEq, Repr

/-- `enum binarithm_operator`. -/
inductive BinOp : Type where
  | band | bor | div | lshift | minus | modulo | plus | rshift | times | bxor
  | greater | greatereq | land | lequal | less | lesseq | lor | lxor | nequal
deriving DecidableEq, Repr

/-- The operator partition of `check_expr_binarithm`: `true` for the
numeric-arithmetic group (result is the operand type), `false` for the
logical group (result is `bool`). -/
def BinOp.is_numeric_group : BinOp → Bool
  | .band | .bor | .div | .lshift | .minus | .modulo | .plus | .rshift
  | .times | .bxor => true
  | _ => false

/-- `enum unarithm_operator`. -/
inductive UnOp : Type where
  | lnot | bnot | uminus | uplus | addr | deref
deriving DecidableEq, Repr

/-- `enum cast_kind`. -/
inductive CastKind : Type where
  | ccast | assertion | test
deriving DecidableEq, Repr

/-- `enum measure_operator`. -/
inductive MeasureOp : Type where
  | len | size | offset
deriving DecidableEq, Repr

/-- `enum object_type` of scope objects. -/
inductive ObjectType : Type where
  | o_bind | o_const | o_decl | o_type
deriving DecidableEq, Repr

/-- The identity of a scope object as recorded on expression nodes
(`expr->access.object`, `binding->object`): its kind, lookup identifier,
user-facing name and type.  `O_CONST` values are never recorded here
because `check_expr_access` splices the constant in instead. -/
structure ObjRef : Type where
  otype : ObjectType
  ident : Identifier
  name : Identifier
  ty : Ty
deriving DecidableEq

mutual
/-- Typed expressions (`struct expression`): every node carries `result`
(a nullable type pointer) and `terminates`, plus the kind-specific
payload. -/
inductive Expression : Type where
  | mk (result : Option Ty) (terminates : Bool) (data : ExpressionData)

/-- The kind-specific payload union of `struct expression`. -/
inductive ExpressionData : Type where
  | access_ident (obj : ObjRef)
  | access_index (array : Expression) (index : Expression)
  | access_field (strct : Expression) (fname : String) (fty : Ty)
  | assertE (cond : Option Expression) (message : Expression)
  | assign (op : Nat) (indirect : Bool) (object : Expression) (value : Expression)
  | binarithm (op : BinOp) (lvalue : Expression) (rvalue : Expression)
  | binding (entries : List BindingEntry)
  | call (lvalue : Expression) (args : List Expression)
  | cast (kind : CastKind) (secondary : Option Ty) (value : Expression)
  | constant (c : ConstantVal)
  | control (isBreak : Bool) (label : Option String)
  | deferE (deferred : Expression)
  | forE (label : Option String) (sid : Nat) (bindings : Option Expression)
      (cond : Expression) (afterthought : Option Expression) (body : Expression)
  | ifE (cond : Expression) (true_branch : Expression) (false_branch : Option Expression)
  | list (sid : Nat) (exprs : List Expression)
  | measure_len (value : Expression)
  | measure_size (ty : Ty)
  | returnE (value : Option Expression)
  | slice (object : Expression) (start : Option Expression) (finish : Option Expression)
  | structE (fields : List StructEntry)
  | switchE (value : Expression) (cases : List SwitchCase)
  | unarithm (op : UnOp) (operand : Expression)

/-- One link of `struct expression_binding`. -/
inductive BindingEntry : Type where
  | mk (obj : ObjRef) (initializer : Expression)

/-- One link of `struct expression_struct`. -/
inductive StructEntry : Type where
  | mk (fname : String) (fty : Ty) (value : Expression)

/-- One link of `struct switch_case` (evaluated option values and body). -/
inductive SwitchCase : Type where
  | mk (options : List Expression) (value : Expression)

/-- The `constant` payload union of `struct expression`. -/
inductive ConstantVal : Type where
  | ival (i : Int)
  | uval (n : Nat)
  | runeV (r : Nat)
  | bval (b : Bool)
  | novalue
  | strV (value : String) (len : Nat)
  | arrV (items : List Expression) (expand : Bool)
end

/-- `expr->result`. -/
def Expression.result : Expression → Option Ty
  | .mk r _ _ => r

/-- `expr->terminates`. -/
def Expression.terminates : Expression → Bool
  | .mk _ t _ => t

/-- The payload of a typed expression. -/
def Expression.data : Expression → ExpressionData
  | .mk _ _ d => d

/-- `expr->type`: the kind tag, determined by the payload. -/
def Expression.etype (e : Expression) : ExprType :=
  match e.data with
  | .access_ident _ | .access_index _ _ | .access_field _ _ _ => .access
  | .assertE _ _ => .assertE
  | .assign _ _ _ _ => .assign
  | .binarithm _ _ _ => .binarithm
  | .binding _ => .binding
  | .call _ _ => .call
  | .cast _ _ _ => .cast
  | .constant _ => .constant
  | .control true _ => .breakE
  | .control false _ => .continueE
  | .deferE _ => .deferE
  | .forE _ _ _ _ _ _ => .forE
  | .ifE _ _ _ => .ifE
  | .list _ _ => .list
  | .measure_len _ | .measure_size _ => .measure
  | .returnE _ => .returnE
  | .slice _ _ _ => .slice
  | .structE _ => .structE
  | .switchE _ _ => .switchE
  | .unarithm _ _ => .unarithm

/-- `BindingEntry` accessors. -/
def BindingEntry.obj : BindingEntry → ObjRef
  | .mk o _ => o

def BindingEntry.initializer : BindingEntry → Expression
  | .mk _ i => i

def StructEntry.value : StructEntry → Expression
  | .mk _ _ v => v

def SwitchCase.options : SwitchCase → List Expression
  | .mk o _ => o

def SwitchCase.value : SwitchCase → Expression
  | .mk _ v => v

/-- A named entry of a lexical scope (`struct scope_object`): kind,
lookup identifier, user-facing name, type, and — for `O_CONST` — the
evaluated constant expression. -/
structure ScopeObject : Type where
  otype : ObjectType
  ident : Identifier
  name : Identifier
  ty : Ty
  value : Option Expression

/-- One lexical scope (`struct scope`).  `sid` models the scope's
pointer identity; `stype` is the expression kind that created the scope
(`scope->type`, `none` while unset); `label` is the loop label.  The
parent chain is the tail of the `Context.scope` list. -/
structure ScopeFrame : Type where
  sid : Nat
  stype : Option ExprType
  label : Option String
  objects : List ScopeObject

/-- The checker context (`struct context`).  `scope` is the stack of
scopes, innermost first; its last element is the unit scope.  `nextSid`
hands out fresh scope identities; `idCounter` is `ctx->id` (the
`static.N` counter); `current_fntype` is the enclosing function type for
`return` checking. -/
structure Context : Type where
  scope : List ScopeFrame
  nextSid : Nat
  deferring : Bool
  idCounter : Nat
  current_fntype : Option Ty
  ns : Option Identifier

/-- Modelled from the spec: `scope_insert` of `scope.c` (not part of the
sources) appends an object to a scope's insertion-ordered object list
(section 4.1). -/
def frame_insert (f : ScopeFrame) (o : ScopeObject) : ScopeFrame :=
  { f with objects := f.objects ++ [o] }

/-- Does a scope object answer to a lookup key?  Modelled from the spec:
lookups succeed on either spelling of an object (sections 4.1 and 4.3:
both the short and the fully-qualified key of an enum constant resolve),
so both the `ident` and the `name` of the object are compared. -/
def scope_object_matches (key : Identifier) (o : ScopeObject) : Bool :=
  o.ident == key || o.name == key

/-- Modelled from the spec: `scope_lookup` of `scope.c` (not part of the
sources) searches the current scope and then its parents, returning the
first match (section 4.1). -/
def scope_lookup (key : Identifier) : List ScopeFrame → Option ScopeObject
  | [] => none
  | f :: rest =>
      match f.objects.find? (scope_object_matches key) with
      | some o => some o
      | none => scope_lookup key rest

/-- `scope_insert(ctx->scope, ...)`: insert into the current scope. -/
def ctx_insert_current (ctx : Context) (o : ScopeObject) : Context :=
  match ctx.scope with
  | [] => ctx
  | f :: rest => { ctx with scope := frame_insert f o :: rest }

/-- `scope_insert(ctx->unit, ...)`: insert into the unit scope, the root
of the scope chain. -/
def scope_insert_unit : List ScopeFrame → ScopeObject → List ScopeFrame
  | [], _ => []
  | [f], o => [frame_insert f o]
  | f :: rest, o => f :: scope_insert_unit rest o

def ctx_insert_unit (ctx : Context) (o : ScopeObject) : Context :=
  { ctx with scope := scope_insert_unit ctx.scope o }

/-- `scope_push(&ctx->scope, ...)`: push a fresh scope (zero-initialised
kind and label) onto the scope stack. -/
def scope_push (ctx : Context) : Context :=
  { ctx with
      scope := ⟨ctx.nextSid, none, none, []⟩ :: ctx.scope
      nextSid := ctx.nextSid + 1 }

/-- `scope_pop(&ctx->scope, ...)`: restore the parent scope. -/
def scope_pop (ctx : Context) : Context :=
  { ctx with scope := ctx.scope.tail }

/-- `scope->type = ...` on the current scope. -/
def ctx_set_scope_type (ctx : Context) (k : ExprType) : Context :=
  match ctx.scope with
  | [] => ctx
  | f :: rest => { ctx with scope := { f with stype := some k } :: rest }

/-- `scope->label = ...` on the current scope. -/
def ctx_set_scope_label (ctx : Context) (l : Option String) : Context :=
  match ctx.scope with
  | [] => ctx
  | f :: rest => { ctx with scope := { f with label := l } :: rest }

/-- External collaborators consumed by the checker: the assignability
and castability relations, the type-size table of the store, and the
constant evaluator `eval_expr` (`none` models `EVAL_ERR`, and `some` the
`EVAL_OK` output expression).  They live in `type_store.c`, `types.c`
and `eval.c`, which are outside the checked sources; the checker treats
them as black boxes (spec sections 4.2, 4.6 and 6). -/
structure Externals : Type where
  type_is_assignable : Ty → Ty → Bool
  type_is_castable : Ty → Ty → Bool
  ty_size : Ty → Option Nat
  eval_expr : Expression → Option Expression

/-- `lower_implicit_cast`: return the expression unchanged when its
result is already the target type, otherwise wrap it in a `C_CAST` cast
node whose result is the target (the `secondary` type of the cast node
is left NULL by `xcalloc`). -/
def lower_implicit_cast (tgt : Ty) (expr : Expression) : Expression :=
  if expr.result = some tgt then expr
  else .mk (some tgt) expr.terminates (.cast .ccast none expr)

mutual
/-- Untyped AST expressions (`struct ast_expression`): a location plus
the kind payload. -/
inductive AstExpression : Type where
  | mk (loc : Loc) (data : AstData)

/-- The payload union of `struct ast_expression`.  Syntactic types
(`struct ast_type`) are represented by the interned `Ty` they denote, so
`type_store_lookup_atype` is the identity in this model. -/
inductive AstData : Type where
  | access_ident (ident : Identifier)
  | access_index (array : AstExpression) (index : AstExpression)
  | access_field (strct : AstExpression) (field : String)
  | assertE (cond : Option AstExpression) (message : Option AstExpression)
  | assign (op : Nat) (indirect : Bool) (object : AstExpression) (value : AstExpression)
  | binarithm (op : BinOp) (lvalue : AstExpression) (rvalue : AstExpression)
  | binding (first : AstBinding) (rest : List AstBinding)
  | call (lvalue : AstExpression) (args : List AstCallArgument)
  | cast (kind : CastKind) (ty : Ty) (value : AstExpression)
  | constant (c : AstConstant)
  | control (isBreak : Bool) (label : Option String)
  | deferE (deferred : AstExpression)
  | forE (label : Option String) (bindings : Option AstExpression) (cond : AstExpression)
      (afterthought : Option AstExpression) (body : AstExpression)
  | ifE (cond : AstExpression) (true_branch : AstExpression) (false_branch : Option AstExpression)
  | list (first : AstExpression) (rest : List AstExpression)
  | matchE
  | measure_len (value : AstExpression)
  | measure_size (ty : Ty)
  | measure_offset
  | returnE (value : Option AstExpression)
  | slice (object : AstExpression) (start : Option AstExpression) (finish : Option AstExpression)
  | structE (autofill : Bool) (named : Bool) (fields : List AstFieldValue)
  | switchE (value : AstExpression) (cases : List AstSwitchCase)
  | unarithm (op : UnOp) (operand : AstExpression)

/-- One link of `struct ast_expression_binding`. -/
inductive AstBinding : Type where
  | mk (name : String) (ty : Option Ty) (flags : Nat) (is_static : Bool)
      (initializer : AstExpression)

/-- One link of `struct ast_call_argument`. -/
inductive AstCallArgument : Type where
  | mk (variadic : Bool) (value : AstExpression)

/-- The `constant` payload of an AST expression.  Each constructor
couples the storage tag of `aexpr->constant.storage` with the matching
member of the payload union; `otherC` covers the storage classes whose
cases in `check_expr_constant` abort (`assert(0)`). -/
inductive AstConstant : Type where
  | intC (storage : TypeStorage) (i : Int)
  | uintC (storage : TypeStorage) (n : Nat)
  | runeC (r : Nat)
  | boolC (b : Bool)
  | nullC
  | voidC
  | stringC (value : String)
  | arrayC (items : List AstArrayConstant)
  | otherC (storage : TypeStorage)

/-- One link of `struct ast_array_constant`. -/
inductive AstArrayConstant : Type where
  | mk (expand : Bool) (value : AstExpression)

/-- One link of `struct ast_field_value` (struct literal fields; the
field's declared syntactic type is its interned `Ty`). -/
inductive AstFieldValue : Type where
  | mk (name : String) (ty : Ty) (initializer : AstExpression)

/-- One link of `struct ast_switch_case`. -/
inductive AstSwitchCase : Type where
  | mk (options : List AstExpression) (value : AstExpression)
end

def AstExpression.loc : AstExpression → Loc
  | .mk l _ => l

def AstExpression.data : AstExpression → AstData
  | .mk _ d => d

def AstBinding.name : AstBinding → String
  | .mk n _ _ _ _ => n

def AstBinding.ty : AstBinding → Option Ty
  | .mk _ t _ _ _ => t

def AstBinding.flags : AstBinding → Nat
  | .mk _ _ f _ _ => f

def AstBinding.is_static : AstBinding → Bool
  | .mk _ _ _ s _ => s

def AstBinding.initializer : AstBinding → AstExpression
  | .mk _ _ _ _ i => i

def AstCallArgument.variadic : AstCallArgument → Bool
  | .mk v _ => v

def AstCallArgument.value : AstCallArgument → AstExpression
  | .mk _ v => v

def AstArrayConstant.expand : AstArrayConstant → Bool
  | .mk e _ => e

def AstArrayConstant.value : AstArrayConstant → AstExpression
  | .mk _ v => v

def AstFieldValue.name : AstFieldValue → String
  | .mk n _ _ => n

def AstFieldValue.ty : AstFieldValue → Ty
  | .mk _ t _ => t

def AstFieldValue.initializer : AstFieldValue → AstExpression
  | .mk _ _ i => i

def AstSwitchCase.options : AstSwitchCase → List AstExpression
  | .mk o _ => o

def AstSwitchCase.value : AstSwitchCase → AstExpression
  | .mk _ v => v

/-- The type of (fuel-instantiated) recursive invocations of
`check_expression`, as passed down to the per-kind helpers. -/
abbrev CheckFn : Type :=
  Context → AstExpression → Option Ty → Option (Expression × Context)

/-- Checking an optional sub-expression (NULL AST pointers). -/
def check_opt (ck : CheckFn) (ctx : Context) (a : Option AstExpression)
    (hint : Option Ty) : Option (Option Expression × Context) :=
  match a with
  | none => some (none, ctx)
  | some ae =>
      match ck ctx ae hint with
      | none => none
      | some (e, ctx1) => some (some e, ctx1)

/-- `check_expr_access`, `ACCESS_IDENTIFIER` arm: look the identifier up;
an `O_CONST` is lowered by splicing its stored constant expression into
the node (`*expr = *obj->value`); an `O_TYPE` is a fatal diagnostic;
`O_BIND`/`O_DECL` record the object and take its type as the result. -/
def check_expr_access_ident (ctx : Context) (ident : Identifier) :
    Option (Expression × Context) :=
  match scope_lookup ident ctx.scope with
  | none => none
  | some obj =>
      match obj.otype with
      | .o_const =>
          match obj.value with
          | none => none
          | some v => some (v, ctx)
      | .o_bind | .o_decl =>
          some (.mk (some obj.ty) false
            (.access_ident ⟨obj.otype, obj.ident, obj.name, obj.ty⟩), ctx)
      | .o_type => none

/-- `check_expr_access`, `ACCESS_INDEX` arm: check array and index with
no hint, dereference the array type, require array or slice, require an
integer index, lower an implicit cast of the index to `size`, and take
the member type with the array's flags merged in as the result. -/
def check_expr_access_index (_env : Externals) (ck : CheckFn) (ctx : Context)
    (aarray aindex : AstExpression) : Option (Expression × Context) :=
  match ck ctx aarray none with
  | none => none
  | some (array, ctx1) =>
      match ck ctx1 aindex none with
      | none => none
      | some (index, ctx2) =>
          match array.result with
          | none => none
          | some ares =>
              match type_dereference ares with
              | none => none
              | some atype =>
                  match index.result with
                  | none => none
                  | some ires =>
                      let itype := type_dealias ires
                      if atype.storage = .arrayS ∨ atype.storage = .sliceS then
                        if type_is_integer itype then
                          match atype.array_members with
                          | none => none
                          | some member =>
                              let index1 := lower_implicit_cast builtin_type_size index
                              some (.mk
                                (some (member.withFlags (atype.flags ||| member.flags)))
                                false (.access_index array index1), ctx2)
                        else none
                      else none

/-- `check_expr_access`, `ACCESS_FIELD` arm. -/
def check_expr_access_field (ck : CheckFn) (ctx : Context)
    (astrct : AstExpression) (field : String) : Option (Expression × Context) :=
  match ck ctx astrct none with
  | none => none
  | some (strct, ctx1) =>
      match strct.result with
      | none => none
      | some sres =>
          match type_dereference sres with
          | none => none
          | some stype =>
              if stype.storage = .structS ∨ stype.storage = .unionS then
                match type_get_field stype field with
                | none => none
                | some fty =>
                    some (.mk (some fty) false (.access_field strct field fty), ctx1)
              else none

/-- The synthesised assertion message,
`"Assertion failed: %s:%d:%d"` with the location substituted. -/
def assertion_message (loc : Loc) : String :=
  "Assertion failed: " ++ loc.path ++ ":" ++ toString loc.lineno ++ ":"
    ++ toString loc.colno

/-- `check_expr_assert`.  Without a user message the constant message is
synthesised; the code formats it with `snprintf(s, n, ...)` where `n` is
the full length, and `snprintf` with limit `n` writes only `n - 1`
characters plus the terminating NUL into the `n + 1` zeroed bytes, so
the stored bytes are the truncated message followed by a zero byte while
the recorded length stays `n`. -/
def check_expr_assert (_env : Externals) (ck : CheckFn) (ctx : Context) (loc : Loc)
    (acond amessage : Option AstExpression) : Option (Expression × Context) :=
  let condStep : Option (Option Expression × Bool × Context) :=
    match acond with
    | some ac =>
        match ck ctx ac (some builtin_type_bool) with
        | none => none
        | some (cond, ctx1) =>
            match cond.result with
            | none => none
            | some cres =>
                if cres.storage = .boolS then some (some cond, false, ctx1) else none
    | none => some (none, true, ctx)
  match condStep with
  | none => none
  | some (cond, term, ctx1) =>
      match amessage with
      | some am =>
          match ck ctx1 am (some builtin_type_str) with
          | none => none
          | some (message, ctx2) =>
              match message.result with
              | none => none
              | some mres =>
                  if mres.storage = .stringS then
                    some (.mk (some builtin_type_void) term (.assertE cond message), ctx2)
                  else none
      | none =>
          let s := assertion_message loc
          let n := s.length
          let stored := (s.take (n - 1)).push (Char.ofNat 0)
          let message : Expression :=
            .mk (some builtin_type_const_str) false (.constant (.strV stored n))
          some (.mk (some builtin_type_void) term (.assertE cond message), ctx1)

/-- `check_expr_assign`. -/
def check_expr_assign (env : Externals) (ck : CheckFn) (ctx : Context) (op : Nat)
    (indirect : Bool) (aobject avalue : AstExpression) : Option (Expression × Context) :=
  match ck ctx aobject none with
  | none => none
  | some (object, ctx1) =>
      match ck ctx1 avalue object.result with
      | none => none
      | some (value, ctx2) =>
          if indirect then
            match object.result with
            | none => none
            | some ores =>
                match ores with
                | .pointer _ pflags referent =>
                    if pflags &&& PTR_NULLABLE = 0 then
                      match value.result with
                      | none => none
                      | some vres =>
                          if env.type_is_assignable referent vres then
                            some (.mk (some builtin_type_void) false
                              (.assign op indirect object (lower_implicit_cast referent value)),
                              ctx2)
                          else none
                    else none
                | _ => none
          else
            if object.etype = .access then
              match object.result with
              | none => none
              | some ores =>
                  if ores.flags &&& TYPE_CONST = 0 then
                    match value.result with
                    | none => none
                    | some vres =>
                        if env.type_is_assignable ores vres then
                          some (.mk (some builtin_type_void) false
                            (.assign op indirect object (lower_implicit_cast ores value)),
                            ctx2)
                        else none
                  else none
            else none

/-- `check_expr_binarithm`: both operand storages must coincide
(`assert`, promotion is an open item); the numeric group keeps the
operand type, the logical group yields `bool`. -/
def check_expr_binarithm (_env : Externals) (ck : CheckFn) (ctx : Context)
    (op : BinOp) (alvalue arvalue : AstExpression) : Option (Expression × Context) :=
  match ck ctx alvalue none with
  | none => none
  | some (lvalue, ctx1) =>
      match ck ctx1 arvalue none with
      | none => none
      | some (rvalue, ctx2) =>
          match lvalue.result with
          | none => none
          | some lres =>
              match rvalue.result with
              | none => none
              | some rres =>
                  if lres.storage = rres.storage then
                    let res := if op.is_numeric_group then lres else builtin_type_bool
                    some (.mk (some res) false (.binarithm op lvalue rvalue), ctx2)
                  else none

/-- The loop body of `check_expr_binding`, one `ast_expression_binding`
link at a time. -/
def check_bindings (env : Externals) (ck : CheckFn) :
    Context → List AstBinding → Option (List BindingEntry × Context)
  | ctx, [] => some ([], ctx)
  | ctx, ab :: rest =>
      let type0 : Option Ty :=
        match ab.ty with
        | some t => some (t.withFlags (t.flags ||| ab.flags))
        | none => none
      match ck ctx ab.initializer type0 with
      | none => none
      | some (initializer, ctx1) =>
          let tyO : Option Ty :=
            match type0 with
            | some t => some t
            | none =>
                match initializer.result with
                | some r => some (r.withFlags ab.flags)
                | none => none
          match tyO with
          | none => none
          | some ty =>
              match env.ty_size ty with
              | none => none
              | some 0 => none
              | some (_ + 1) =>
                  match initializer.result with
                  | none => none
                  | some ires =>
                      if env.type_is_assignable ty ires then
                        let stored := lower_implicit_cast ty initializer
                        if ab.is_static then
                          match env.eval_expr initializer with
                          | none => none
                          | some _value =>
                              let gen : Identifier :=
                                .base ("static." ++ toString ctx1.idCounter)
                              let ctx2 := { ctx1 with idCounter := ctx1.idCounter + 1 }
                              let obj : ScopeObject :=
                                ⟨.o_decl, gen, .base ab.name, ty, none⟩
                              let ctx3 := ctx_insert_current ctx2 obj
                              match check_bindings env ck ctx3 rest with
                              | none => none
                              | some (entries, ctx4) =>
                                  some (⟨⟨.o_decl, gen, .base ab.name, ty⟩, stored⟩ :: entries,
                                    ctx4)
                        else
                          let obj : ScopeObject :=
                            ⟨.o_bind, .base ab.name, .base ab.name, ty, none⟩
                          let ctx3 := ctx_insert_current ctx1 obj
                          match check_bindings env ck ctx3 rest with
                          | none => none
                          | some (entries, ctx4) =>
                              some (⟨⟨.o_bind, .base ab.name, .base ab.name, ty⟩, stored⟩
                                :: entries, ctx4)
                      else none

/-- `check_expr_binding`. -/
def check_expr_binding (env : Externals) (ck : CheckFn) (ctx : Context)
    (first : AstBinding) (rest : List AstBinding) : Option (Expression × Context) :=
  match check_bindings env ck ctx (first :: rest) with
  | none => none
  | some (entries, ctx1) =>
      some (.mk (some builtin_type_void) false (.binding entries), ctx1)

/-- `lower_vaargs`: collect the remaining call arguments into a
synthetic array literal of the variadic member type and check it against
an unbounded array hint. -/
def lower_vaargs (ck : CheckFn) (ctx : Context) (args : List AstCallArgument)
    (loc : Loc) (member : Ty) : Option (Expression × Context) :=
  let val : AstExpression :=
    .mk loc (.constant (.arrayC (args.map (fun a => AstArrayConstant.mk false a.value))))
  let hint := Ty.arrayTy 0 none member
  match ck ctx val (some hint) with
  | none => none
  | some (vaargs, ctx1) =>
      match vaargs.result with
      | none => none
      | some vres =>
          if vres.storage = .arrayS then
            if vres.array_members = some member then some (vaargs, ctx1) else none
          else none

/-- The parameter/argument walk of `check_expr_call`: native variadism
collects the tail arguments through `lower_vaargs` on the final formal
parameter; otherwise each argument is checked under the parameter-type
hint, required assignable, and lowered through an implicit cast.  Arity
mismatches in either direction are fatal. -/
def check_call_args (env : Externals) (ck : CheckFn) :
    Context → List Ty → Variadism → List AstCallArgument →
    Option (List Expression × Context)
  | ctx, [], _, [] => some ([], ctx)
  | _, [], _, _ :: _ => none
  | _, _ :: _, _, [] => none
  | ctx, pty :: prest, vari, aarg :: arest =>
      if prest.isEmpty ∧ vari = .hare ∧ !aarg.variadic then
        match pty.array_members with
        | none => none
        | some member =>
            match lower_vaargs ck ctx (aarg :: arest) aarg.value.loc member with
            | none => none
            | some (vaargs, ctx1) => some ([lower_implicit_cast pty vaargs], ctx1)
      else
        match ck ctx aarg.value (some pty) with
        | none => none
        | some (value, ctx1) =>
            match value.result with
            | none => none
            | some vres =>
                if env.type_is_assignable pty vres then
                  match check_call_args env ck ctx1 prest vari arest with
                  | none => none
                  | some (vs, ctx2) => some (lower_implicit_cast pty value :: vs, ctx2)
                else none

/-- `check_expr_call`. -/
def check_expr_call (env : Externals) (ck : CheckFn) (ctx : Context)
    (alvalue : AstExpression) (args : List AstCallArgument) :
    Option (Expression × Context) :=
  match ck ctx alvalue none with
  | none => none
  | some (lvalue, ctx1) =>
      match lvalue.result with
      | none => none
      | some lres =>
          match type_dereference lres with
          | none => none
          | some fntype =>
              match fntype with
              | .funcTy _ vari params result =>
                  match check_call_args env ck ctx1 params.toList vari args with
                  | none => none
                  | some (argvs, ctx2) =>
                      some (.mk (some result) false (.call lvalue argvs), ctx2)
              | _ => none

/-- The tagged-union admissibility test of `check_expr_cast`: assertion
and test casts require the dealiased value type to be a tagged union
containing the secondary type. -/
def cast_tagged_ok (kind : CastKind) (vres secondary : Ty) : Bool :=
  if kind = .assertion ∨ kind = .test then
    match type_dealias vres with
    | .taggedTy _ members => members.containsTy secondary
    | _ => false
  else true

/-- `check_expr_cast`. -/
def check_expr_cast (env : Externals) (ck : CheckFn) (ctx : Context)
    (kind : CastKind) (secondary : Ty) (avalue : AstExpression) :
    Option (Expression × Context) :=
  match ck ctx avalue (some secondary) with
  | none => none
  | some (value, ctx1) =>
      match value.result with
      | none => none
      | some vres =>
          if env.type_is_castable secondary vres then
            if cast_tagged_ok kind vres secondary then
              let res :=
                match kind with
                | .ccast | .assertion => secondary
                | .test => builtin_type_bool
              some (.mk (some res) false (.cast kind (some secondary) value), ctx1)
            else none
          else none

/-- The item walk of `check_expr_array`: threads the element type
(`NULL` until hinted or inferred from the first element), counts the
items, records expansion, and asserts that only the last item expands. -/
def check_array_items (env : Externals) (ck : CheckFn) :
    Context → Option Ty → List AstArrayConstant →
    Option (List Expression × Option Ty × Nat × Bool × Context)
  | ctx, ty, [] => some ([], ty, 0, false, ctx)
  | ctx, ty, item :: rest =>
      match ck ctx item.value ty with
      | none => none
      | some (value, ctx1) =>
          let stepped : Option (Expression × Option Ty) :=
            match ty with
            | none => some (value, value.result)
            | some t =>
                match value.result with
                | none => none
                | some vres =>
                    if env.type_is_assignable t vres then
                      some (lower_implicit_cast t value, some t)
                    else none
          match stepped with
          | none => none
          | some (stored, ty1) =>
              if item.expand ∧ !rest.isEmpty then none
              else
                match check_array_items env ck ctx1 ty1 rest with
                | none => none
                | some (vs, ty2, len, expandable, ctx2) =>
                    some (stored :: vs, ty2, len + 1, expandable || item.expand, ctx2)

/-- `check_expr_array`.  An expandable literal requires an array hint of
defined length at least the item count and takes the hinted length;
otherwise the length is the item count.  The element type must exist for
the store to intern the array type. -/
def check_expr_array (env : Externals) (ck : CheckFn) (ctx : Context)
    (items : List AstArrayConstant) (hint : Option Ty) :
    Option (Expression × Context) :=
  let ty0 : Option Ty :=
    match hint with
    | some h => h.array_members
    | none => none
  match check_array_items env ck ctx ty0 items with
  | none => none
  | some (values, ty1, len, expandable, ctx1) =>
      if expandable then
        match hint with
        | none => none
        | some h =>
            match h with
            | .arrayTy _ (some hlen) _ =>
                if len ≤ hlen then
                  match ty1 with
                  | none => none
                  | some t =>
                      some (.mk (some (Ty.arrayTy 0 (some hlen) t)) false
                        (.constant (.arrV values true)), ctx1)
                else none
            | _ => none
      else
        match ty1 with
        | none => none
        | some t =>
            some (.mk (some (Ty.arrayTy 0 (some len) t)) false
              (.constant (.arrV values false)), ctx1)

/-- `check_expr_constant`: scalars take the canonical builtin type for
their storage; strings copy their bytes; arrays delegate to the
array-literal elaborator; the float/struct cases and the
impossible-storage cases abort. -/
def check_expr_constant (env : Externals) (ck : CheckFn) (ctx : Context)
    (c : AstConstant) (hint : Option Ty) : Option (Expression × Context) :=
  match c with
  | .intC st i => some (.mk (builtin_type_for_storage st) false (.constant (.ival i)), ctx)
  | .uintC st n => some (.mk (builtin_type_for_storage st) false (.constant (.uval n)), ctx)
  | .runeC r => some (.mk (builtin_type_for_storage .runeS) false (.constant (.runeV r)), ctx)
  | .boolC b => some (.mk (builtin_type_for_storage .boolS) false (.constant (.bval b)), ctx)
  | .nullC => some (.mk (builtin_type_for_storage .nullS) false (.constant .novalue), ctx)
  | .voidC => some (.mk (builtin_type_for_storage .voidS) false (.constant .novalue), ctx)
  | .stringC s =>
      some (.mk (builtin_type_for_storage .stringS) false (.constant (.strV s s.length)), ctx)
  | .arrayC items => check_expr_array env ck ctx items hint
  | .otherC _ => none

/-- `check_expr_defer`: no nested defers; the `deferring` flag brackets
the check of the deferred expression. -/
def check_expr_defer (ck : CheckFn) (ctx : Context) (adeferred : AstExpression) :
    Option (Expression × Context) :=
  if ctx.deferring then none
  else
    match ck { ctx with deferring := true } adeferred none with
    | none => none
    | some (deferred, ctx1) =>
        some (.mk (some builtin_type_void) false (.deferE deferred),
          { ctx1 with deferring := false })

/-- The scope walk of `check_expr_control`: ascend the parent chain,
considering only scopes created for a `for` expression; an unlabeled
break/continue stops at the first such scope, a labeled one at the first
whose label matches. -/
def lookup_label_scope : List ScopeFrame → Option String → Option ScopeFrame
  | [], _ => none
  | s :: rest, label =>
      if s.stype ≠ some ExprType.forE then lookup_label_scope rest label
      else
        match label with
        | none => some s
        | some l => if s.label = some l then some s else lookup_label_scope rest label

/-- `check_expr_control`: resolve the label against the scope stack and
mark the node as terminating.  Note that the function never assigns
`expr->result`, which therefore keeps the NULL installed by `xcalloc`. -/
def check_expr_control (ctx : Context) (isBreak : Bool) (label : Option String) :
    Option (Expression × Context) :=
  match lookup_label_scope ctx.scope label with
  | none => none
  | some _ => some (.mk none true (.control isBreak label), ctx)

/-- The ancestor walk of the for-label uniqueness check: every ancestor
scope that carries a label must carry a different one. -/
def ancestor_labels_differ (frames : List ScopeFrame) (l : String) : Bool :=
  frames.all fun f =>
    match f.label with
    | none => true
    | some al => al != l

/-- `check_expr_for`: push a scope of kind `for` carrying the loop
label, require the label to be unique among ancestors, check bindings,
boolean condition, afterthought and body inside it, then pop. -/
def check_expr_for (ck : CheckFn) (ctx : Context) (label : Option String)
    (abindings : Option AstExpression) (acond : AstExpression)
    (aafterthought : Option AstExpression) (abody : AstExpression) :
    Option (Expression × Context) :=
  let sid := ctx.nextSid
  let ctx1 := ctx_set_scope_label (ctx_set_scope_type (scope_push ctx) .forE) label
  let labelOk :=
    match label with
    | none => true
    | some l => ancestor_labels_differ ctx1.scope.tail l
  if labelOk then
    match check_opt ck ctx1 abindings none with
    | none => none
    | some (bindings, ctx2) =>
        match ck ctx2 acond (some builtin_type_bool) with
        | none => none
        | some (cond, ctx3) =>
            match cond.result with
            | none => none
            | some cres =>
                if cres.storage = .boolS then
                  match check_opt ck ctx3 aafterthought none with
                  | none => none
                  | some (afterthought, ctx4) =>
                      match ck ctx4 abody none with
                      | none => none
                      | some (body, ctx5) =>
                          some (.mk (some builtin_type_void) false
                            (.forE label sid bindings cond afterthought body),
                            scope_pop ctx5)
                else none
  else none

/-- `check_expr_if`.  The result type merges the branches according to
their `terminates` flags; branches that both fail to terminate must
agree on the result type (`assert`, tagged unions are an open item).
With a false branch present the node's `terminates` flag is never
assigned and keeps the `false` installed by `xcalloc`; without one it
copies the true branch's flag. -/
def check_expr_if (ck : CheckFn) (ctx : Context) (acond atrue : AstExpression)
    (afalse : Option AstExpression) : Option (Expression × Context) :=
  match ck ctx acond (some builtin_type_bool) with
  | none => none
  | some (cond, ctx1) =>
      match ck ctx1 atrue none with
      | none => none
      | some (true_branch, ctx2) =>
          match afalse with
          | some af =>
              match ck ctx2 af none with
              | none => none
              | some (false_branch, ctx3) =>
                  let res : Option (Option Ty) :=
                    if true_branch.terminates ∧ false_branch.terminates then
                      some (some builtin_type_void)
                    else if true_branch.terminates then some false_branch.result
                    else if false_branch.terminates then some true_branch.result
                    else if true_branch.result = false_branch.result then
                      some true_branch.result
                    else none
                  match res with
                  | none => none
                  | some r =>
                      match cond.result with
                      | none => none
                      | some cres =>
                          if cres.storage = .boolS then
                            some (.mk r false (.ifE cond true_branch (some false_branch)),
                              ctx3)
                          else none
          | none =>
              match cond.result with
              | none => none
              | some cres =>
                  if cres.storage = .boolS then
                    some (.mk (some builtin_type_void) true_branch.terminates
                      (.ifE cond true_branch none), ctx2)
                  else none

/-- The expression walk of `check_expr_list`; yields all checked
expressions together with the last one, whose result and termination
flag the list node copies. -/
def check_list_exprs (ck : CheckFn) :
    Context → AstExpression → List AstExpression →
    Option (List Expression × Expression × Context)
  | ctx, a, [] =>
      match ck ctx a none with
      | none => none
      | some (e, ctx1) => some ([e], e, ctx1)
  | ctx, a, b :: rest =>
      match ck ctx a none with
      | none => none
      | some (e, ctx1) =>
          match check_list_exprs ck ctx1 b rest with
          | none => none
          | some (l, last, ctx2) => some (e :: l, last, ctx2)

/-- `check_expr_list`: push a scope of kind `list`, check the
expressions, copy result and termination from the last one, pop. -/
def check_expr_list (ck : CheckFn) (ctx : Context) (first : AstExpression)
    (rest : List AstExpression) : Option (Expression × Context) :=
  let sid := ctx.nextSid
  let ctx1 := ctx_set_scope_type (scope_push ctx) .list
  match check_list_exprs ck ctx1 first rest with
  | none => none
  | some (exprs, last, ctx2) =>
      some (.mk last.result last.terminates (.list sid exprs), scope_pop ctx2)

/-- `check_expr_measure`, `M_LEN` arm: the operand must be an array,
slice or string of defined size; the result is `size`. -/
def check_expr_measure_len (env : Externals) (ck : CheckFn) (ctx : Context)
    (avalue : AstExpression) : Option (Expression × Context) :=
  match ck ctx avalue none with
  | none => none
  | some (value, ctx1) =>
      match value.result with
      | none => none
      | some vres =>
          if vres.storage = .arrayS ∨ vres.storage = .sliceS
              ∨ vres.storage = .stringS then
            match env.ty_size vres with
            | none => none
            | some _ => some (.mk (some builtin_type_size) false (.measure_len value), ctx1)
          else none

/-- `check_expr_return`: a bare return only marks termination; a valued
return checks the value under the enclosing function's result hint,
requires assignability, and lowers an implicit cast when the result
types differ. -/
def check_expr_return (env : Externals) (ck : CheckFn) (ctx : Context) :
    Option AstExpression → Option (Expression × Context)
  | none => some (.mk (some builtin_type_void) true (.returnE none), ctx)
  | some av =>
      match ctx.current_fntype with
      | none => none
      | some fntype =>
          match fntype with
          | .funcTy _ _ _ result =>
              match ck ctx av (some result) with
              | none => none
              | some (rval, ctx1) =>
                  match rval.result with
                  | none => none
                  | some rres =>
                      if env.type_is_assignable result rres then
                        let rval1 :=
                          if some result ≠ rval.result then
                            lower_implicit_cast result rval
                          else rval
                        some (.mk (some builtin_type_void) true (.returnE (some rval1)),
                          ctx1)
                      else none
          | _ => none

/-- One optional slicing operand: checked with no hint, required to
dealias to an integer, lowered to `size`. -/
def check_slice_operand (ck : CheckFn) (ctx : Context)
    (a : Option AstExpression) : Option (Option Expression × Context) :=
  match a with
  | none => some (none, ctx)
  | some ae =>
      match ck ctx ae none with
      | none => none
      | some (e, ctx1) =>
          match e.result with
          | none => none
          | some eres =>
              if type_is_integer (type_dealias eres) then
                some (some (lower_implicit_cast builtin_type_size e), ctx1)
              else none

/-- `check_expr_slice`.  Note that the array/slice storage test is made
on the undereferenced object type (the dereferenced `atype` is only
checked against NULL), exactly as in the source. -/
def check_expr_slice (ck : CheckFn) (ctx : Context) (aobject : AstExpression)
    (astart afinish : Option AstExpression) : Option (Expression × Context) :=
  match ck ctx aobject none with
  | none => none
  | some (object, ctx1) =>
      match object.result with
      | none => none
      | some ores =>
          match type_dereference ores with
          | none => none
          | some _atype =>
              if ores.storage = .sliceS ∨ ores.storage = .arrayS then
                match check_slice_operand ck ctx1 astart with
                | none => none
                | some (start, ctx2) =>
                    match check_slice_operand ck ctx2 afinish with
                    | none => none
                    | some (finish, ctx3) =>
                        match ores.array_members with
                        | none => none
                        | some member =>
                            some (.mk (some (Ty.sliceTy 0 member)) false
                              (.slice object start finish), ctx3)
              else none

/-- The first walk of `check_expr_struct`: check every field initializer
under its declared type as hint. -/
def check_struct_values (ck : CheckFn) :
    Context → List AstFieldValue → Option (List (String × Expression) × Context)
  | ctx, [] => some ([], ctx)
  | ctx, f :: rest =>
      match ck ctx f.initializer (some f.ty) with
      | none => none
      | some (value, ctx1) =>
          match check_struct_values ck ctx1 rest with
          | none => none
          | some (vs, ctx2) => some ((f.name, value) :: vs, ctx2)

/-- The synthetic struct type built from the literal's field names and
declared field types. -/
def ast_fields_to_struct : List AstFieldValue → StructFields
  | [] => .nil
  | f :: rest => .cons f.name f.ty (ast_fields_to_struct rest)

/-- The second walk of `check_expr_struct`: resolve each field against
the interned struct type, require assignability, lower implicit casts. -/
def lower_struct_fields (env : Externals) (stype : Ty) :
    List (String × Expression) → Option (List StructEntry)
  | [] => some []
  | (n, v) :: rest =>
      match type_get_field stype n with
      | none => none
      | some fty =>
          match v.result with
          | none => none
          | some vres =>
              if env.type_is_assignable fty vres then
                match lower_struct_fields env stype rest with
                | none => none
                | some es => some (.mk n fty (lower_implicit_cast fty v) :: es)
              else none

/-- `check_expr_struct` (autofill and named struct literals are open
items and abort; an empty field list walks uninitialised memory in the
source and is modelled as failure). -/
def check_expr_struct (env : Externals) (ck : CheckFn) (ctx : Context)
    (autofill named : Bool) (fields : List AstFieldValue) :
    Option (Expression × Context) :=
  if autofill ∨ named then none
  else
    match fields with
    | [] => none
    | _ :: _ =>
        match check_struct_values ck ctx fields with
        | none => none
        | some (values, ctx1) =>
            let stype : Ty := .structTy TYPE_CONST false (ast_fields_to_struct fields)
            match lower_struct_fields env stype values with
            | none => none
            | some entries =>
                some (.mk (some stype) false (.structE entries), ctx1)

/-- The option walk of one switch case: each option value is checked
with the scrutinee type as hint, required identical to it (stricter than
assignable), and constant-evaluated. -/
def check_case_options (env : Externals) (ck : CheckFn) :
    Context → Option Ty → List AstExpression → Option (List Expression × Context)
  | ctx, _, [] => some ([], ctx)
  | ctx, ty, aopt :: rest =>
      match ck ctx aopt ty with
      | none => none
      | some (value, ctx1) =>
          if ty = value.result then
            match env.eval_expr value with
            | none => none
            | some evaled =>
                match check_case_options env ck ctx1 ty rest with
                | none => none
                | some (opts, ctx2) => some (evaled :: opts, ctx2)
          else none

/-- The update of `expr->result` after one switch case: a terminating
body leaves it alone; otherwise a NULL state takes the body's result,
and a non-NULL state must be the identical result pointer (`assert`,
tagged-union formation is an open item). -/
def switch_case_state (state : Option Ty) (body : Expression) : Option (Option Ty) :=
  if body.terminates then some state
  else
    match state with
    | none => some body.result
    | some t => if body.result = some t then some state else none

/-- The case walk of `check_expr_switch`.  `state` threads
`expr->result` (NULL until the first case whose body does not
terminate). -/
def check_switch_cases (env : Externals) (ck : CheckFn) :
    Context → Option Ty → Option Ty → List AstSwitchCase →
    Option (List SwitchCase × Option Ty × Context)
  | ctx, _, state, [] => some ([], state, ctx)
  | ctx, ty, state, acase :: rest =>
      match check_case_options env ck ctx ty acase.options with
      | none => none
      | some (opts, ctx1) =>
          match ck ctx1 acase.value ty with
          | none => none
          | some (body, ctx2) =>
              match switch_case_state state body with
              | none => none
              | some st =>
                  match check_switch_cases env ck ctx2 ty st rest with
                  | none => none
                  | some (cases, state2, ctx3) =>
                      some (⟨opts, body⟩ :: cases, state2, ctx3)

/-- `check_expr_switch`: if every case body terminates the switch has
result `void` and terminates; otherwise the result is the one threaded
through the cases. -/
def check_expr_switch (env : Externals) (ck : CheckFn) (ctx : Context)
    (avalue : AstExpression) (acases : List AstSwitchCase) :
    Option (Expression × Context) :=
  match ck ctx avalue none with
  | none => none
  | some (value, ctx1) =>
      let ty := value.result
      match check_switch_cases env ck ctx1 ty none acases with
      | none => none
      | some (cases, state, ctx2) =>
          match state with
          | none => some (.mk (some builtin_type_void) true (.switchE value cases), ctx2)
          | some t => some (.mk (some t) false (.switchE value cases), ctx2)

/-- `check_expr_unarithm`. -/
def check_expr_unarithm (ck : CheckFn) (ctx : Context) (op : UnOp)
    (aoperand : AstExpression) : Option (Expression × Context) :=
  match ck ctx aoperand none with
  | none => none
  | some (operand, ctx1) =>
      match op with
      | .lnot =>
          match operand.result with
          | none => none
          | some ores =>
              if ores.storage = .boolS then
                some (.mk (some builtin_type_bool) false (.unarithm op operand), ctx1)
              else none
      | .bnot =>
          match operand.result with
          | none => none
          | some ores =>
              if type_is_integer ores ∧ !type_is_signed ores then
                some (.mk (some ores) false (.unarithm op operand), ctx1)
              else none
      | .uminus | .uplus =>
          match operand.result with
          | none => none
          | some ores =>
              if type_is_numeric ores ∧ type_is_signed ores then
                some (.mk (some ores) false (.unarithm op operand), ctx1)
              else none
      | .addr =>
          match operand.result with
          | none => none
          | some ores =>
              some (.mk (some (Ty.pointer 0 0 ores)) false (.unarithm op operand), ctx1)
      | .deref =>
          match operand.result with
          | none => none
          | some ores =>
              match ores with
              | .pointer _ pflags referent =>
                  if pflags &&& PTR_NULLABLE = 0 then
                    some (.mk (some referent) false (.unarithm op operand), ctx1)
                  else none
              | _ => none

/-- `check_expression`: the dispatch over expression kinds.  The fuel
argument bounds the recursion depth (the C recursion is bounded by the
finite AST; a `none` from exhausted fuel only adds a failure mode and
never changes a successful run).  `match` expressions are an open item
and abort. -/
def check_expression (env : Externals) : Nat → CheckFn
  | 0, _, _, _ => none
  | fuel + 1, ctx, aexpr, hint =>
      let ck : CheckFn := check_expression env fuel
      match aexpr.data with
      | .access_ident i => check_expr_access_ident ctx i
      | .access_index a i => check_expr_access_index env ck ctx a i
      | .access_field s f => check_expr_access_field ck ctx s f
      | .assertE c m => check_expr_assert env ck ctx aexpr.loc c m
      | .assign op ind o v => check_expr_assign env ck ctx op ind o v
      | .binarithm op l r => check_expr_binarithm env ck ctx op l r
      | .binding first rest => check_expr_binding env ck ctx first rest
      | .call lv args => check_expr_call env ck ctx lv args
      | .cast kind ty v => check_expr_cast env ck ctx kind ty v
      | .constant c => check_expr_constant env ck ctx c hint
      | .control isBreak label => check_expr_control ctx isBreak label
      | .deferE d => check_expr_defer ck ctx d
      | .forE label b c a body => check_expr_for ck ctx label b c a body
      | .ifE c t f => check_expr_if ck ctx c t f
      | .list first rest => check_expr_list ck ctx first rest
      | .matchE => none
      | .measure_len v => check_expr_measure_len env ck ctx v
      | .measure_size t => some (.mk (some builtin_type_size) false (.measure_size t), ctx)
      | .measure_offset => none
      | .returnE v => check_expr_return env ck ctx v
      | .slice o s f => check_expr_slice ck ctx o s f
      | .structE af nm fs => check_expr_struct env ck ctx af nm fs
      | .switchE v cs => check_expr_switch env ck ctx v cs
      | .unarithm op o => check_expr_unarithm ck ctx op o

/-- `FN_FINI` flag bit (from `check.h`; the concrete bit values are
immaterial, the flags are only used as masks). -/
def FN_FINI : Nat := 1

/-- `FN_INIT` flag bit. -/
def FN_INIT : Nat := 2

/-- `FN_TEST` flag bit. -/
def FN_TEST : Nat := 4

/-- One link of `struct ast_function_parameters` (parameter name may be
missing, which is a fatal diagnostic; the syntactic type is its interned
`Ty`). -/
structure AstFunctionParameters : Type where
  name : Option String
  ty : Ty

/-- `struct ast_function_type` (the prototype). -/
structure AstFunctionType : Type where
  params : List AstFunctionParameters
  result : Ty
  variadism : Variadism

/-- `struct ast_function_decl`. -/
structure AstFunctionDecl : Type where
  flags : Nat
  prototype : AstFunctionType
  body : Option AstExpression
  symbol : Option String
  ident : Identifier

/-- `struct ast_global_decl` (shared by constants and globals). -/
structure AstGlobalDecl : Type where
  ident : Identifier
  ty : Ty
  init : Option AstExpression
  symbol : Option String

/-- `struct ast_type_decl`. -/
structure AstTypeDecl : Type where
  ident : Identifier
  ty : Ty

/-- The payload union of `struct ast_decl`. -/
inductive AstDeclData : Type where
  | constD (g : AstGlobalDecl)
  | funcD (f : AstFunctionDecl)
  | globalD (g : AstGlobalDecl)
  | typeD (t : AstTypeDecl)

/-- `struct ast_decl`. -/
structure AstDecl : Type where
  exported : Bool
  data : AstDeclData

/-- The payload of a produced `struct declaration`. -/
inductive DeclarationData : Type where
  | func (ty : Ty) (flags : Nat) (scopeSid : Nat) (body : Expression)
  | globalD (ty : Ty) (value : Expression)
  | typeD (ty : Ty)

/-- `struct declaration`.  `exported` is zero-initialised by `xcalloc`
in `check_function`/`check_global`/`check_type` and only assigned
afterwards, by `check_declarations`. -/
structure Declaration : Type where
  ident : Identifier
  symbol : Option String
  exported : Bool
  data : DeclarationData

/-- `mkident`: duplicate an identifier and, when the unit has a
namespace, overwrite the copy's namespace with it. -/
def mkident (ctx : Context) (i : Identifier) : Identifier :=
  match ctx.ns with
  | none => i
  | some ns => .qual i.name ns

/-- Modelled from the spec: the parameter types of the interned function
type.  The store surfaces the final native-variadic parameter to the
function type as a slice (glossary, "native variadism"), which
`check_expr_call` reads back through `param->type->array.members`. -/
def fn_param_types (vari : Variadism) : List AstFunctionParameters → TyList
  | [] => .nil
  | [p] => .cons (if vari = .hare then Ty.sliceTy 0 p.ty else p.ty) .nil
  | p :: rest => .cons p.ty (fn_param_types vari rest)

/-- The interned type of `fn_atype` in `check_function`/`scan_function`:
storage `function`, flags `TYPE_CONST`, the declared prototype. -/
def fntype_of_prototype (p : AstFunctionType) : Ty :=
  .funcTy TYPE_CONST p.variadism (fn_param_types p.variadism p.params) p.result

/-- The parameter walk of `check_function`: every parameter must be
named and is inserted into the function scope as `O_BIND`; the final
native-variadic parameter's type becomes a slice of its declared type. -/
def scope_insert_params : Context → Variadism → List AstFunctionParameters → Option Context
  | ctx, _, [] => some ctx
  | ctx, vari, p :: rest =>
      match p.name with
      | none => none
      | some nm =>
          let ty := if vari = .hare ∧ rest.isEmpty then Ty.sliceTy 0 p.ty else p.ty
          scope_insert_params
            (ctx_insert_current ctx ⟨.o_bind, .base nm, .base nm, ty, none⟩) vari rest

/-- `check_function`.  A declaration without a body is a prototype and
produces nothing.  C-style variadism is rejected.  The body is checked
under the result-type hint inside a fresh function scope holding the
parameters; it must terminate or be assignable to the result type, and
is lowered through an implicit cast when the result types differ.
Functions flagged `@init`/`@fini`/`@test` must return `void`; the
exported check reads `decl->exported`, which at this point is still the
`false` installed by `xcalloc` (`check_declarations` assigns it only
after `check_function` returns), so that `expect` can never fire. -/
def check_function (env : Externals) (fuel : Nat) (ctx : Context)
    (adecl : AstFunctionDecl) : Option (Option Declaration × Context) :=
  match adecl.body with
  | none => some (none, ctx)
  | some abody =>
      let fntype := fntype_of_prototype adecl.prototype
      let ctx0 := { ctx with current_fntype := some fntype }
      if adecl.prototype.variadism = .cvari then none
      else
        let identSym : Identifier × Option String :=
          match adecl.symbol with
          | some s => (.base s, some s)
          | none => (mkident ctx0 adecl.ident, none)
        let sid := ctx0.nextSid
        let ctx1 := scope_push ctx0
        match scope_insert_params ctx1 adecl.prototype.variadism adecl.prototype.params with
        | none => none
        | some ctx2 =>
            match check_expression env fuel ctx2 abody (some adecl.prototype.result) with
            | none => none
            | some (body, ctx3) =>
                let lowered : Option Expression :=
                  if body.terminates then some body
                  else
                    match body.result with
                    | none => none
                    | some bres =>
                        if env.type_is_assignable adecl.prototype.result bres then
                          some (if some adecl.prototype.result ≠ body.result then
                              lower_implicit_cast adecl.prototype.result body
                            else body)
                        else none
                match lowered with
                | none => none
                | some body1 =>
                    let decl : Declaration :=
                      ⟨identSym.1, identSym.2, false, .func fntype adecl.flags sid body1⟩
                    let flagged := adecl.flags &&& FN_INIT ≠ 0 ∨ adecl.flags &&& FN_FINI ≠ 0
                        ∨ adecl.flags &&& FN_TEST ≠ 0
                    let flagsOk :=
                      if flagged then
                        adecl.prototype.result = builtin_type_void ∧ decl.exported = false
                      else True
                    if flagsOk then
                      some (some decl, { scope_pop ctx3 with current_fntype := none })
                    else none

/-- `check_global`: a declaration without an initializer is a forward
declaration; otherwise the initializer is checked under the declared
type, required assignable, lowered, and constant-evaluated. -/
def check_global (env : Externals) (fuel : Nat) (ctx : Context)
    (adecl : AstGlobalDecl) : Option (Option Declaration × Context) :=
  match adecl.init with
  | none => some (none, ctx)
  | some ainit =>
      match check_expression env fuel ctx ainit (some adecl.ty) with
      | none => none
      | some (initializer, ctx1) =>
          match initializer.result with
          | none => none
          | some ires =>
              if env.type_is_assignable adecl.ty ires then
                match env.eval_expr (lower_implicit_cast adecl.ty initializer) with
                | none => none
                | some value =>
                    let identSym : Identifier × Option String :=
                      match adecl.symbol with
                      | some s => (.base s, some s)
                      | none => (mkident ctx adecl.ident, none)
                    some (some ⟨identSym.1, identSym.2, false, .globalD adecl.ty value⟩, ctx1)
              else none

/-- `check_type`. -/
def check_type (ctx : Context) (adecl : AstTypeDecl) : Declaration :=
  ⟨mkident ctx adecl.ident, none, false, .typeD adecl.ty⟩

/-- `check_declarations` (pass 2): constants were handled during scan;
each produced declaration receives its `exported` flag from the AST
declaration only after its check ran. -/
def check_declarations (env : Externals) (fuel : Nat) :
    Context → List AstDecl → Option (List Declaration × Context)
  | ctx, [] => some ([], ctx)
  | ctx, ad :: rest =>
      let step : Option (Option Declaration × Context) :=
        match ad.data with
        | .constD _ => some (none, ctx)
        | .funcD f => check_function env fuel ctx f
        | .globalD g => check_global env fuel ctx g
        | .typeD t => some (some (check_type ctx t), ctx)
      match step with
      | none => none
      | some (d, ctx1) =>
          match check_declarations env fuel ctx1 rest with
          | none => none
          | some (ds, ctx2) =>
              match d with
              | some decl => some ({ decl with exported := ad.exported } :: ds, ctx2)
              | none => some (ds, ctx2)

/-- The `O_CONST` scope object that `scan_type` inserts for one enum
value: the lookup identifier is the short form `EnumName::Value`
(namespace `name_ns`, a copy of the declaration identifier), the name is
the fully-qualified form (namespace = the `mkident`-mangled identifier),
the type is the interned alias, and the value is the constant expression
holding the enum value (`ival` or `uval` by signedness). -/
def enum_value_object (declIdent mangled : Identifier) (aliasType : Ty)
    (nv : String × Int) : ScopeObject :=
  ⟨.o_const, .qual nv.1 declIdent, .qual nv.1 mangled, aliasType,
    some (.mk (some aliasType) false
      (.constant (if type_is_signed aliasType then .ival nv.2 else .uval nv.2.toNat)))⟩

/-- The enum-value walk of `scan_type`: each value is inserted into the
unit scope. -/
def scan_enum_values (declIdent mangled : Identifier) (aliasType : Ty) :
    Context → List (String × Int) → Context
  | ctx, [] => ctx
  | ctx, (vname, vval) :: rest =>
      scan_enum_values declIdent mangled aliasType
        (ctx_insert_unit ctx (enum_value_object declIdent mangled aliasType (vname, vval)))
        rest

/-- `scan_type` (pass 1): insert the type declaration as `O_TYPE` into
the unit scope; if the type is an enum, additionally insert each enum
value as `O_CONST` typed with the interned alias of the declared
identifier (the alias resolves to the scanned type). -/
def scan_type (ctx : Context) (adecl : AstTypeDecl) : Context :=
  let mangled := mkident ctx adecl.ident
  let ctx1 := ctx_insert_unit ctx ⟨.o_type, mangled, adecl.ident, adecl.ty, none⟩
  match adecl.ty with
  | .enumTy _ values =>
      let aliasType : Ty := .aliasTy 0 adecl.ident adecl.ty
      scan_enum_values adecl.ident mangled aliasType ctx1 values
  | _ => ctx1

set_option maxRecDepth 10000

/-- A concrete instantiation of the external collaborators, used by the
closed evaluations and witnesses below: assignability and castability by
interned identity, a simple size table, and an evaluator that returns
already-constant expressions unchanged. -/
def env_ex : Externals :=
  { type_is_assignable := fun a b => a == b
    type_is_castable := fun _ _ => true
    ty_size := fun t =>
      match t with
      | .scalar _ .voidS => some 0
      | .arrayTy _ none _ => none
      | _ => some 8
    eval_expr := fun e => some e }

/-- A fixed source location for the concrete programs below. -/
def loc_ex : Loc := ⟨"a.ha", 1, 1⟩

/-- An empty unit scope. -/
def frame_unit : ScopeFrame := ⟨0, none, none, []⟩

/-- A scope created by a `for` expression (as `check_expr_for` creates
them), child of the unit scope. -/
def frame_for : ScopeFrame := ⟨1, some .forE, none, []⟩

/-- A context whose current scope is inside a `for` loop. -/
def ctx_for : Context := ⟨[frame_for, frame_unit], 2, false, 0, none, none⟩

/-- A context holding only the unit scope. -/
def ctx_unit : Context := ⟨[frame_unit], 1, false, 0, none, none⟩

/-- The AST of an unlabeled `break`. -/
def break_ast : AstExpression := .mk loc_ex (.control true none)

/-- Claim C1 (code bug evaluation).  The claim states that every typed
expression node produced by `check_expression` carries a non-null
`result`, in particular break/continue nodes elaborated by
`check_expr_control`.  Checking the concrete program `break` inside a
`for` scope succeeds, but the node's `result` is NULL (`none`):
`check_expr_control` marks the node as terminating and never assigns
`expr->result`, which keeps the NULL installed by `xcalloc`. -/
theorem c1_break_result_null_eval :
    (check_expression env_ex 1 ctx_for break_ast none).map
      (fun p => (p.1.result, p.1.terminates)) = some (none, true) := rfl

/-- The AST of the constant `true`. -/
def bool_true_ast : AstExpression := .mk loc_ex (.constant (.boolC true))

/-- The AST of `if (true) break else break`. -/
def if_both_terminate_ast : AstExpression :=
  .mk loc_ex (.ifE bool_true_ast break_ast (some break_ast))

/-- Claim C2 (code bug evaluation).  The claim states termination
monotonicity, in particular: an `if` with a false branch whose branches
both terminate has `terminates = true`.  Checking the concrete program
`if (true) break else break` inside a `for` scope succeeds, both
branches terminate, yet the `if` node's `terminates` is `false`:
on the false-branch-present path `check_expr_if` computes the result
type but never assigns `expr->terminates` (only the no-false-branch
path does), so the flag keeps the `false` installed by `xcalloc`. -/
theorem c2_if_both_terminate_eval :
    (check_expression env_ex 2 ctx_for if_both_terminate_ast none).map
      (fun p => (p.1.result, p.1.terminates))
      = some (some builtin_type_void, false) := rfl

/-- The AST of the expression `void` (an empty function body). -/
def void_const_ast : AstExpression := .mk loc_ex (.constant .voidC)

/-- An `@init` function declaration `f` with `void` result and a trivial
body. -/
def init_fn_decl : AstFunctionDecl :=
  ⟨FN_INIT, ⟨[], builtin_type_void, .novari⟩, some void_const_ast, none, .base "f"⟩

/-- The same declaration marked `export`. -/
def init_fn_adecl : AstDecl := ⟨true, .funcD init_fn_decl⟩

/-- Claim C3 (code bug evaluation).  The claim states that checking
fails when an `@init`/`@fini`/`@test` function is declared exported.
Checking the concrete exported `@init` function succeeds and yields a
declaration with `exported = true`: `check_function` tests
`!decl->exported` on the freshly `xcalloc`d declaration, but
`check_declarations` assigns `decl->exported = adecl->exported` only
after `check_function` has returned, so the exported check can never
fire. -/
theorem c3_exported_init_accepted_eval :
    (check_declarations env_ex 1 ctx_unit [init_fn_adecl]).map
      (fun p => p.1.map Declaration.exported) = some [true] := rfl

/-- The AST of `assert(...)` with neither condition nor message at
`a.ha:1:1`. -/
def assert_ast : AstExpression := .mk loc_ex (.assertE none none)

/-- Claim C9 (code bug evaluation).  The claim states that the
synthesised assertion message's bytes are exactly
`"Assertion failed: <path>:<line>:<col>"` with the stored length equal
to that string's length.  For the concrete assert at `a.ha:1:1` the
full message is `"Assertion failed: a.ha:1:1"` (26 characters) and the
recorded length is 26, but the stored bytes are the first 25 characters
followed by a zero byte — `snprintf(s, n, ...)` with `n` the full
length writes only `n - 1` characters plus the NUL, truncating the
final character. -/
theorem c9_assert_message_truncated_eval :
    ((check_expression env_ex 1 ctx_unit assert_ast none).map
      (fun p =>
        match p.1.data with
        | .assertE _ m =>
            match m.data with
            | .constant (.strV v n) => some (v, n)
            | _ => none
        | _ => none)
      = some (some ("Assertion failed: a.ha:1:".push (Char.ofNat 0), 26)))
    ∧ "Assertion failed: a.ha:1:".push (Char.ofNat 0) ≠ "Assertion failed: a.ha:1:1" := by
  exact ⟨rfl, by decide⟩

/-- Claim C6.  Label resolution for `break`/`continue` walks the parent
chain of the current scope and considers only scopes created for a
`for` expression: an unlabeled control expression resolves to the first
(innermost) `for` scope, a labeled one to the first ancestor `for`
scope carrying an equal label, and `check_expr_control` fails (the
unknown-label diagnostic) exactly when no such scope exists, otherwise
producing the terminating control node without touching the context. -/
theorem c6_label_resolution :
    (∀ frames : List ScopeFrame,
      lookup_label_scope frames none
        = frames.find? (fun s => s.stype == some ExprType.forE))
    ∧ (∀ (frames : List ScopeFrame) (l : String),
      lookup_label_scope frames (some l)
        = frames.find? (fun s => s.stype == some ExprType.forE && s.label == some l))
    ∧ (∀ (ctx : Context) (isBreak : Bool) (label : Option String),
      check_expr_control ctx isBreak label
        = match lookup_label_scope ctx.scope label with
          | none => none
          | some _ => some (.mk none true (.control isBreak label), ctx)) := by
  refine ⟨?_, ?_, ?_⟩
  · intro frames
    induction frames with
    | nil => rfl
    | cons f rest ih =>
        by_cases h : f.stype = some ExprType.forE
        · have hb : (f.stype == some ExprType.forE) = true := by simp [h]
          simp [lookup_label_scope, List.find?, h, hb]
        · have hb : (f.stype == some ExprType.forE) = false := by simp [h]
          simp [lookup_label_scope, List.find?, h, hb, ih]
  · intro frames l
    induction frames with
    | nil => rfl
    | cons f rest ih =>
        by_cases h : f.stype = some ExprType.forE
        · have hb : (f.stype == some ExprType.forE) = true := by simp [h]
          by_cases h2 : f.label = some l
          · have hb2 : (f.label == some l) = true := by simp [h2]
            simp [lookup_label_scope, List.find?, h, h2, hb, hb2]
          · have hb2 : (f.label == some l) = false := by simp [h2]
            simp [lookup_label_scope, List.find?, h, h2, hb, hb2, ih]
        · have hb : (f.stype == some ExprType.forE) = false := by simp [h]
          simp [lookup_label_scope, List.find?, h, hb, ih]
  · intro ctx isBreak label
    rfl

/-- `lower_implicit_cast` always yields the target result type: either
the expression already has it, or the cast node carries it. -/
theorem lower_implicit_cast_result (tgt : Ty) (e : Expression) :
    (lower_implicit_cast tgt e).result = some tgt := by
  unfold lower_implicit_cast
  split
  next h => exact h
  next => rfl

/-- `Ty.withFlags` installs exactly the requested flags. -/
theorem withFlags_flags (t : Ty) (f : Nat) : (t.withFlags f).flags = f := by
  cases t <;> rfl

/-- A bit set in `a &&& c` stays set in `(a ||| b) &&& c`. -/
theorem and_ne_zero_of_or (a b c : Nat) (h : a &&& c ≠ 0) : (a ||| b) &&& c ≠ 0 := by
  intro hz
  apply h
  apply Nat.zero_of_testBit_eq_false
  intro i
  have ht : ((a ||| b) &&& c).testBit i = false := by
    rw [hz]; exact Nat.zero_testBit i
  rw [Nat.testBit_land, Nat.testBit_lor] at ht
  rw [Nat.testBit_land]
  cases hta : a.testBit i <;> cases htc : c.testBit i <;> simp_all

/-- What a successful index access guarantees (the conclusion of claim
C7): the array and index sub-expressions were checked with no hint, the
dereferenced array type is an array or slice, the index's dealiased type
is an integer, the stored index is the implicit cast of the checked
index to `size` (the identity exactly when the index already has type
`size`), and the node's result is the member type carrying the union of
the array type's flags and the member's own flags — so a `const` array
yields a `const` element type. -/
def IndexAccessSpec (ck : CheckFn) (ctx : Context) (aarray aindex : AstExpression)
    (e : Expression) (ctx' : Context) : Prop :=
  ∃ array index ctx1 ares atype ires member,
    ck ctx aarray none = some (array, ctx1)
    ∧ ck ctx1 aindex none = some (index, ctx')
    ∧ array.result = some ares
    ∧ type_dereference ares = some atype
    ∧ index.result = some ires
    ∧ (atype.storage = .arrayS ∨ atype.storage = .sliceS)
    ∧ type_is_integer (type_dealias ires) = true
    ∧ atype.array_members = some member
    ∧ e = .mk (some (member.withFlags (atype.flags ||| member.flags))) false
        (.access_index array (lower_implicit_cast builtin_type_size index))
    ∧ (lower_implicit_cast builtin_type_size index).result = some builtin_type_size
    ∧ (index.result = some builtin_type_size →
        lower_implicit_cast builtin_type_size index = index)
    ∧ e.result = some (member.withFlags (atype.flags ||| member.flags))
    ∧ (atype.flags &&& TYPE_CONST ≠ 0 →
        (member.withFlags (atype.flags ||| member.flags)).flags &&& TYPE_CONST ≠ 0)

/-- Claim C7.  For every index-access expression that checks
successfully, the index sub-expression has an integer (dealiased) type
and is wrapped in an implicit cast to the builtin `size` type (a no-op
exactly when it is already `size`), and the node's result is the
array's member type with the array type's flags propagated into it; in
particular a `const` array yields a `const` element type. -/
theorem c7_index_access (env : Externals) (ck : CheckFn) (ctx : Context)
    (aarray aindex : AstExpression) (e : Expression) (ctx' : Context)
    (h : check_expr_access_index env ck ctx aarray aindex = some (e, ctx')) :
    IndexAccessSpec ck ctx aarray aindex e ctx' := by
  unfold check_expr_access_index at h
  split at h
  next => exact Option.noConfusion h
  next array ctx1 hck1 =>
    split at h
    next => exact Option.noConfusion h
    next index ctx2 hck2 =>
      split at h
      next => exact Option.noConfusion h
      next ares hares =>
        split at h
        next => exact Option.noConfusion h
        next atype hatype =>
          split at h
          next => exact Option.noConfusion h
          next ires hires =>
            split at h
            next hstor =>
              split at h
              next =>
                simp only [] at h
                split at h <;> exact Option.noConfusion h
              next member hmem =>
                simp only [] at h
                split at h
                next hint =>
                  injection h with h1
                  obtain ⟨he, hctx⟩ := Prod.mk.inj h1
                  subst hctx
                  refine ⟨array, index, ctx1, ares, atype, ires, member,
                    hck1, hck2, hares, hatype, hires, hstor, hint, hmem,
                    he.symm, lower_implicit_cast_result _ _, ?_, ?_, ?_⟩
                  · intro hsz
                    unfold lower_implicit_cast
                    simp [hsz]
                  · rw [← he]; rfl
                  · intro hc
                    rw [withFlags_flags]
                    exact and_ne_zero_of_or _ _ _ hc
                next => exact Option.noConfusion h
            next => exact Option.noConfusion h

/-- A `const` array type `[3]int` with the `const` flag set. -/
def ty_arr_ex : Ty := .arrayTy TYPE_CONST (some 3) (.scalar 0 .intS)

/-- A context binding `arr` to the const array type. -/
def ctx_arr : Context :=
  ⟨[⟨0, none, none, [⟨.o_bind, .base "arr", .base "arr", ty_arr_ex, none⟩]⟩],
    1, false, 0, none, none⟩

/-- The AST of the array operand `arr`. -/
def aarray_ex : AstExpression := .mk loc_ex (.access_ident (.base "arr"))

/-- The AST of the index operand `0` (an `int`, not `size`). -/
def aindex_ex : AstExpression := .mk loc_ex (.constant (.intC .intS 0))

/-- The checked array operand. -/
def array_ex : Expression :=
  .mk (some ty_arr_ex) false (.access_ident ⟨.o_bind, .base "arr", .base "arr", ty_arr_ex⟩)

/-- The checked index operand. -/
def index_ex : Expression := .mk (some (.scalar 0 .intS)) false (.constant (.ival 0))

/-- The typed node produced for `arr[0]`: the index is wrapped in an
implicit cast to `size` and the result type is `const int`. -/
def index_node_ex : Expression :=
  .mk (some (.scalar 1 .intS)) false
    (.access_index array_ex (.mk (some builtin_type_size) false (.cast .ccast none index_ex)))

/-- Witness for claim C7: the concrete program `arr[0]` with
`arr: const [3]int` checks successfully, and `c7_index_access` applies
to it, exhibiting the integer index wrapped in a cast to `size` and the
`const` result type. -/
theorem c7_index_access_witness :
    IndexAccessSpec (check_expression env_ex 1) ctx_arr aarray_ex aindex_ex
      index_node_ex ctx_arr :=
  c7_index_access env_ex (check_expression env_ex 1) ctx_arr aarray_ex aindex_ex
    index_node_ex ctx_arr rfl


/-- `mkident` keeps the name and only replaces the namespace. -/
theorem mkident_name (ctx : Context) (i : Identifier) : (mkident ctx i).name = i.name := by
  unfold mkident
  cases ctx.ns <;> rfl

/-- Running `scan_enum_values` over a single-frame scope appends exactly
the enum value objects, in order. -/
theorem scan_enum_values_scope (declIdent mangled : Identifier) (al : Ty)
    (vs : List (String × Int)) (ctx : Context) (sid : Nat) (st : Option ExprType)
    (lb : Option String) (os : List ScopeObject)
    (h : ctx.scope = [⟨sid, st, lb, os⟩]) :
    (scan_enum_values declIdent mangled al ctx vs).scope
      = [⟨sid, st, lb, os ++ vs.map (enum_value_object declIdent mangled al)⟩] := by
  induction vs generalizing ctx os with
  | nil => simpa [scan_enum_values] using h
  | cons nv rest ih =>
      obtain ⟨n, v⟩ := nv
      rw [scan_enum_values]
      have h' : (ctx_insert_unit ctx
          (enum_value_object declIdent mangled al (n, v))).scope
          = [⟨sid, st, lb, os ++ [enum_value_object declIdent mangled al (n, v)]⟩] := by
        simp [ctx_insert_unit, h, scope_insert_unit, frame_insert]
      rw [ih _ _ h']
      simp

/-- Looking the short or the qualified key of an enum value up among the
inserted enum value objects finds the object of its (unique) name. -/
theorem find_enum_object (declIdent mangled : Identifier) (al : Ty)
    (vs : List (String × Int)) (vname : String) (vval : Int)
    (key : Identifier)
    (hkey : key = .qual vname declIdent ∨ key = .qual vname mangled)
    (hmem : (vname, vval) ∈ vs) (hnodup : (vs.map Prod.fst).Nodup) :
    (vs.map (enum_value_object declIdent mangled al)).find?
        (scope_object_matches key)
      = some (enum_value_object declIdent mangled al (vname, vval)) := by
  induction vs with
  | nil => cases hmem
  | cons nv rest ih =>
      obtain ⟨m, w⟩ := nv
      simp only [List.map_cons, List.find?]
      rcases List.mem_cons.mp hmem with heq | hmem'
      · obtain ⟨h1, h2⟩ := Prod.mk.inj heq
        subst h1
        subst h2
        have hm : scope_object_matches key
            (enum_value_object declIdent mangled al (vname, vval)) = true := by
          rcases hkey with rfl | rfl <;> simp [scope_object_matches, enum_value_object]
        rw [hm]
      · have hvmem : vname ∈ rest.map Prod.fst :=
          List.mem_map.mpr ⟨(vname, vval), hmem', rfl⟩
        have hmne : m ≠ vname := fun he =>
          (List.nodup_cons.mp hnodup).1 (he ▸ hvmem)
        have hm : scope_object_matches key
            (enum_value_object declIdent mangled al (m, w)) = false := by
          rcases hkey with rfl | rfl <;>
            simp [scope_object_matches, enum_value_object, hmne]
        rw [hm]
        exact ih hmem' (List.nodup_cons.mp hnodup).2

/-- Claim C4.  For a top-level enum type declaration scanned into a unit
scope (a single, initially empty frame), every enum value is inserted as
`O_CONST` so that both the short key `EnumName::Value` and the
fully-qualified key resolve, and both lookups return the very same
object, typed with the interned alias and holding the evaluated constant
expression of the value.  (The value's name must differ from the type's
name, lest the `O_TYPE` entry inserted first shadow it; the enum value
names are assumed distinct.) -/
theorem c4_enum_dual_insertion
    (ctx : Context) (adecl : AstTypeDecl) (fl : Nat) (vs : List (String × Int))
    (sid : Nat) (st0 : Option ExprType) (lb0 : Option String)
    (hscope : ctx.scope = [⟨sid, st0, lb0, []⟩])
    (hty : adecl.ty = .enumTy fl vs)
    (hnodup : (vs.map Prod.fst).Nodup)
    (vname : String) (vval : Int) (hmem : (vname, vval) ∈ vs)
    (hne : vname ≠ adecl.ident.name) :
    ∃ o : ScopeObject,
      scope_lookup (.qual vname adecl.ident) (scan_type ctx adecl).scope = some o
      ∧ scope_lookup (.qual vname (mkident ctx adecl.ident)) (scan_type ctx adecl).scope
          = some o
      ∧ o.otype = .o_const
      ∧ o.ty = .aliasTy 0 adecl.ident adecl.ty
      ∧ o.value = some (.mk (some (.aliasTy 0 adecl.ident adecl.ty)) false
          (.constant (.uval vval.toNat))) := by
  obtain ⟨aident, aty⟩ := adecl
  simp only at hty hne ⊢
  subst hty
  have h1 : (ctx_insert_unit ctx
      (⟨.o_type, mkident ctx aident, aident, .enumTy fl vs, none⟩ : ScopeObject)).scope
      = [⟨sid, st0, lb0,
          [⟨.o_type, mkident ctx aident, aident, .enumTy fl vs, none⟩]⟩] := by
    simp [ctx_insert_unit, hscope, scope_insert_unit, frame_insert]
  have hscan : (scan_type ctx ⟨aident, .enumTy fl vs⟩).scope
      = [⟨sid, st0, lb0,
          (⟨.o_type, mkident ctx aident, aident, .enumTy fl vs, none⟩ : ScopeObject)
          :: vs.map (enum_value_object aident (mkident ctx aident)
              (.aliasTy 0 aident (.enumTy fl vs)))⟩] := by
    unfold scan_type
    dsimp only
    rw [scan_enum_values_scope _ _ _ _ _ sid st0 lb0 _ h1]
    simp
  have htype_skip : ∀ key : Identifier, key.name = vname →
      scope_object_matches key
        ⟨.o_type, mkident ctx aident, aident, .enumTy fl vs, none⟩ = false := by
    intro key hkname
    apply Bool.or_eq_false_iff.mpr
    constructor
    · apply beq_eq_false_iff_ne.mpr
      intro he
      apply hne
      have hn := congrArg Identifier.name he
      rw [mkident_name, hkname] at hn
      exact hn.symm
    · apply beq_eq_false_iff_ne.mpr
      intro he
      apply hne
      have hn := congrArg Identifier.name he
      rw [hkname] at hn
      exact hn.symm
  refine ⟨enum_value_object aident (mkident ctx aident)
      (.aliasTy 0 aident (.enumTy fl vs)) (vname, vval), ?_, ?_, rfl, rfl, rfl⟩
  · rw [hscan]
    simp only [scope_lookup, List.find?,
      htype_skip (Identifier.qual vname aident) rfl]
    rw [find_enum_object aident (mkident ctx aident)
      (Ty.aliasTy 0 aident (.enumTy fl vs)) vs vname vval
      (Identifier.qual vname aident) (Or.inl rfl) hmem hnodup]
  · rw [hscan]
    simp only [scope_lookup, List.find?,
      htype_skip (Identifier.qual vname (mkident ctx aident)) rfl]
    rw [find_enum_object aident (mkident ctx aident)
      (Ty.aliasTy 0 aident (.enumTy fl vs)) vs vname vval
      (Identifier.qual vname (mkident ctx aident)) (Or.inr rfl) hmem hnodup]

/-- The type declaration `type Color = enum { Red, Green }`. -/
def enum_decl_ex : AstTypeDecl :=
  ⟨.base "Color", .enumTy 0 [("Red", 0), ("Green", 1)]⟩

/-- Witness for claim C4: scanning the concrete enum `Color` into an
empty unit scope makes `Color::Red` resolve under both spellings to one
`O_CONST` object holding the constant 0. -/
theorem c4_enum_dual_insertion_witness :
    ∃ o : ScopeObject,
      scope_lookup (.qual "Red" (Identifier.base "Color"))
          (scan_type ctx_unit enum_decl_ex).scope = some o
      ∧ scope_lookup (.qual "Red" (mkident ctx_unit (Identifier.base "Color")))
          (scan_type ctx_unit enum_decl_ex).scope = some o
      ∧ o.otype = .o_const
      ∧ o.ty = .aliasTy 0 (.base "Color") (.enumTy 0 [("Red", 0), ("Green", 1)])
      ∧ o.value = some (.mk
          (some (.aliasTy 0 (.base "Color") (.enumTy 0 [("Red", 0), ("Green", 1)])))
          false (.constant (.uval 0))) :=
  c4_enum_dual_insertion ctx_unit enum_decl_ex 0 [("Red", 0), ("Green", 1)]
    0 none none rfl rfl (by decide) "Red" 0 (by decide) (by decide)

/-- Characterization of one switch-case result-state update. -/
theorem switch_case_state_char (state : Option Ty) (body : Expression) (st : Option Ty)
    (h : switch_case_state state body = some st) :
    (body.terminates = true ∧ st = state)
    ∨ (body.terminates = false ∧ state = none ∧ st = body.result)
    ∨ (body.terminates = false ∧ ∃ t, state = some t ∧ body.result = some t ∧ st = some t) := by
  unfold switch_case_state at h
  cases hb : body.terminates with
  | true =>
      rw [hb] at h
      have h' : some state = some st := h
      exact Or.inl ⟨rfl, (Option.some.inj h').symm⟩
  | false =>
      rw [hb] at h
      cases state with
      | none =>
          have h' : some body.result = some st := h
          exact Or.inr (Or.inl ⟨rfl, rfl, (Option.some.inj h').symm⟩)
      | some t =>
          have h' : (if body.result = some t then some (some t) else none) = some st := h
          by_cases hbr : body.result = some t
          · rw [if_pos hbr] at h'
            exact Or.inr (Or.inr ⟨rfl, t, rfl, hbr, (Option.some.inj h').symm⟩)
          · rw [if_neg hbr] at h'
            exact Option.noConfusion h' 

/-- A `some` result state survives the remaining switch cases
unchanged. -/
theorem check_switch_cases_some_state (env : Externals) (ck : CheckFn)
    (acases : List AstSwitchCase) :
    ∀ ctx ty t cases state ctx2,
      check_switch_cases env ck ctx ty (some t) acases = some (cases, state, ctx2) →
      state = some t := by
  induction acases with
  | nil =>
      intro ctx ty t cases state ctx2 h
      rw [check_switch_cases] at h
      simp only [Option.some.injEq, Prod.mk.injEq] at h
      exact h.2.1.symm
  | cons acase rest ih =>
      intro ctx ty t cases state ctx2 h
      rw [check_switch_cases] at h
      split at h
      next => exact Option.noConfusion h
      next opts ctx1 hopts =>
        split at h
        next => exact Option.noConfusion h
        next body bctx hbody =>
          split at h
          next => exact Option.noConfusion h
          next st hst =>
            split at h
            next => exact Option.noConfusion h
            next cs st2 ctx3 hrec =>
              simp only [Option.some.injEq, Prod.mk.injEq] at h
              obtain ⟨-, hstate, -⟩ := h
              have hstt : st = some t := by
                rcases switch_case_state_char _ _ _ hst with ⟨-, hv⟩ | ⟨-, hn, -⟩ |
                  ⟨-, t2, hsome, -, hv⟩
                · exact hv
                · exact Option.noConfusion hn
                · rw [hv, Option.some.inj hsome]
              subst hstt
              exact hstate ▸ ih _ _ _ _ _ _ hrec

/-- If every produced case body terminates, the threaded result state is
returned unchanged. -/
theorem check_switch_cases_all_term (env : Externals) (ck : CheckFn)
    (acases : List AstSwitchCase) :
    ∀ ctx ty st0 cases state ctx2,
      check_switch_cases env ck ctx ty st0 acases = some (cases, state, ctx2) →
      (∀ c ∈ cases, c.value.terminates = true) → state = st0 := by
  induction acases with
  | nil =>
      intro ctx ty st0 cases state ctx2 h _
      rw [check_switch_cases] at h
      simp only [Option.some.injEq, Prod.mk.injEq] at h
      exact h.2.1.symm
  | cons acase rest ih =>
      intro ctx ty st0 cases state ctx2 h hterm
      rw [check_switch_cases] at h
      split at h
      next => exact Option.noConfusion h
      next opts ctx1 hopts =>
        split at h
        next => exact Option.noConfusion h
        next body bctx hbody =>
          split at h
          next => exact Option.noConfusion h
          next st hst =>
            split at h
            next => exact Option.noConfusion h
            next cs st2 ctx3 hrec =>
              simp only [Option.some.injEq, Prod.mk.injEq] at h
              obtain ⟨hcases, hstate, -⟩ := h
              have hbt : body.terminates = true := by
                have := hterm ⟨opts, body⟩ (by rw [← hcases]; exact List.mem_cons_self _ _)
                simpa [SwitchCase.value] using this
              have hstt : st = st0 := by
                rcases switch_case_state_char _ _ _ hst with ⟨-, hv⟩ | ⟨hf, -, -⟩ | ⟨hf, -⟩
                · exact hv
                · rw [hbt] at hf; exact Bool.noConfusion hf
                · rw [hbt] at hf; exact Bool.noConfusion hf
              subst hstt
              refine hstate ▸ ih _ _ _ _ _ _ hrec ?_
              intro c hc
              exact hterm c (by rw [← hcases]; exact List.mem_cons_of_mem _ hc)

/-- Every produced non-terminating case body whose result is non-NULL
carries exactly the final threaded result state. -/
theorem check_switch_cases_nonterm (env : Externals) (ck : CheckFn)
    (acases : List AstSwitchCase) :
    ∀ ctx ty st0 cases state ctx2,
      check_switch_cases env ck ctx ty st0 acases = some (cases, state, ctx2) →
      ∀ c ∈ cases, c.value.terminates = false → c.value.result.isSome →
        c.value.result = state := by
  induction acases with
  | nil =>
      intro ctx ty st0 cases state ctx2 h c hc
      rw [check_switch_cases] at h
      simp only [Option.some.injEq, Prod.mk.injEq] at h
      rw [← h.1] at hc
      cases hc
  | cons acase rest ih =>
      intro ctx ty st0 cases state ctx2 h c hc hcterm hcsome
      rw [check_switch_cases] at h
      split at h
      next => exact Option.noConfusion h
      next opts ctx1 hopts =>
        split at h
        next => exact Option.noConfusion h
        next body bctx hbody =>
          split at h
          next => exact Option.noConfusion h
          next st hst =>
            split at h
            next => exact Option.noConfusion h
            next cs st2 ctx3 hrec =>
              simp only [Option.some.injEq, Prod.mk.injEq] at h
              obtain ⟨hcases, hstate, -⟩ := h
              rw [← hcases] at hc
              rcases List.mem_cons.mp hc with rfl | hc'
              · simp only [SwitchCase.value] at hcterm hcsome ⊢
                have hstv : st = body.result := by
                  rcases switch_case_state_char _ _ _ hst with ⟨ht, -⟩ | ⟨-, -, hv⟩ |
                    ⟨-, t, -, hbr, hv⟩
                  · rw [hcterm] at ht; exact Bool.noConfusion ht
                  · exact hv
                  · rw [hv, hbr]
                obtain ⟨r, hr⟩ := Option.isSome_iff_exists.mp hcsome
                rw [hr] at hstv
                subst hstv
                rw [← hstate, check_switch_cases_some_state env ck rest _ _ _ _ _ _ hrec]
                exact hr
              · exact hstate ▸ ih _ _ _ _ _ _ hrec c hc' hcterm hcsome

/-- A case option whose checked type is not identical to the scrutinee
type is a fatal diagnostic. -/
theorem check_case_options_mismatch (env : Externals) (ck : CheckFn)
    (ctx : Context) (ty : Option Ty) (aopt : AstExpression)
    (rest : List AstExpression) (v : Expression) (ctx1 : Context)
    (hck : ck ctx aopt ty = some (v, ctx1)) (hne : ty ≠ v.result) :
    check_case_options env ck ctx ty (aopt :: rest) = none := by
  rw [check_case_options]
  simp only [hck]
  rw [if_neg hne]

/-- A case option that fails to constant-evaluate is a fatal
diagnostic. -/
theorem check_case_options_eval_fail (env : Externals) (ck : CheckFn)
    (ctx : Context) (ty : Option Ty) (aopt : AstExpression)
    (rest : List AstExpression) (v : Expression) (ctx1 : Context)
    (hck : ck ctx aopt ty = some (v, ctx1)) (hty : ty = v.result)
    (heval : env.eval_expr v = none) :
    check_case_options env ck ctx ty (aopt :: rest) = none := by
  rw [check_case_options]
  simp only [hck]
  rw [if_pos hty]
  simp only [heval]

/-- Every produced option of a successful option walk came from a value
checked under the scrutinee-type hint, of exactly the scrutinee type,
that constant-evaluated to the stored expression. -/
theorem check_case_options_forall (env : Externals) (ck : CheckFn)
    (aopts : List AstExpression) :
    ∀ ctx ty opts ctx',
      check_case_options env ck ctx ty aopts = some (opts, ctx') →
      List.Forall₂ (fun aopt ev => ∃ v c1 c2,
        ck c1 aopt ty = some (v, c2) ∧ v.result = ty ∧ env.eval_expr v = some ev)
        aopts opts := by
  induction aopts with
  | nil =>
      intro ctx ty opts ctx' h
      rw [check_case_options] at h
      simp only [Option.some.injEq, Prod.mk.injEq] at h
      rw [← h.1]
      exact List.Forall₂.nil
  | cons aopt rest ih =>
      intro ctx ty opts ctx' h
      rw [check_case_options] at h
      split at h
      next => exact Option.noConfusion h
      next v ctx1 hck =>
        split at h
        next hty =>
          split at h
          next => exact Option.noConfusion h
          next ev heval =>
            split at h
            next => exact Option.noConfusion h
            next os ctx2 hrec =>
              simp only [Option.some.injEq, Prod.mk.injEq] at h
              obtain ⟨hopts, -⟩ := h
              rw [← hopts]
              exact List.Forall₂.cons ⟨v, ctx, ctx1, hck, hty.symm, heval⟩
                (ih _ _ _ _ hrec)
        next => exact Option.noConfusion h

/-- What a successful switch elaboration guarantees (part of claim C8):
the scrutinee was checked with no hint, the cases walked with its result
type and a NULL initial result state, the node combines them, an
all-terminating case list leaves the state NULL so that the node has
result `void` and terminates, and every non-terminating case body with a
non-NULL result carries exactly the node's result type. -/
def SwitchSpec (env : Externals) (ck : CheckFn) (ctx : Context)
    (avalue : AstExpression) (acases : List AstSwitchCase)
    (e : Expression) (ctx' : Context) : Prop :=
  ∃ value ctx1 cases state,
    ck ctx avalue none = some (value, ctx1)
    ∧ check_switch_cases env ck ctx1 value.result none acases = some (cases, state, ctx')
    ∧ e.data = .switchE value cases
    ∧ ((∀ c ∈ cases, c.value.terminates = true) →
        e.result = some builtin_type_void ∧ e.terminates = true)
    ∧ (∀ c ∈ cases, c.value.terminates = false → c.value.result.isSome →
        c.value.result = e.result)

/-- Claim C8.  Switch checking: every case option is checked under the
scrutinee type as hint, must have exactly that type (not merely an
assignable one) and must constant-evaluate, else checking fails; the
switch node's result is threaded from the first case whose body does not
terminate, every later non-terminating case must carry that same result
type, and if every case terminates the node gets result `void` and
`terminates = true`. -/
theorem c8_switch_checking :
    (∀ (env : Externals) (ck : CheckFn) (ctx : Context) (ty : Option Ty)
        (aopt : AstExpression) (rest : List AstExpression) (v : Expression)
        (ctx1 : Context),
      ck ctx aopt ty = some (v, ctx1) → ty ≠ v.result →
      check_case_options env ck ctx ty (aopt :: rest) = none)
    ∧ (∀ (env : Externals) (ck : CheckFn) (ctx : Context) (ty : Option Ty)
        (aopt : AstExpression) (rest : List AstExpression) (v : Expression)
        (ctx1 : Context),
      ck ctx aopt ty = some (v, ctx1) → ty = v.result → env.eval_expr v = none →
      check_case_options env ck ctx ty (aopt :: rest) = none)
    ∧ (∀ (env : Externals) (ck : CheckFn) (aopts : List AstExpression)
        (ctx : Context) (ty : Option Ty) (opts : List Expression) (ctx' : Context),
      check_case_options env ck ctx ty aopts = some (opts, ctx') →
      List.Forall₂ (fun aopt ev => ∃ v c1 c2,
        ck c1 aopt ty = some (v, c2) ∧ v.result = ty ∧ env.eval_expr v = some ev)
        aopts opts)
    ∧ (∀ (env : Externals) (ck : CheckFn) (ctx : Context) (avalue : AstExpression)
        (acases : List AstSwitchCase) (e : Expression) (ctx' : Context),
      check_expr_switch env ck ctx avalue acases = some (e, ctx') →
      SwitchSpec env ck ctx avalue acases e ctx') := by
  refine ⟨check_case_options_mismatch, check_case_options_eval_fail,
    check_case_options_forall, ?_⟩
  intro env ck ctx avalue acases e ctx' h
  unfold check_expr_switch at h
  split at h
  next => exact Option.noConfusion h
  next value ctx1 hval =>
    simp only [] at h
    split at h
    next => exact Option.noConfusion h
    next cases state ctx2 hcases =>
      split at h
      next =>
        simp only [Option.some.injEq, Prod.mk.injEq] at h
        obtain ⟨he, hctx⟩ := h
        subst hctx
        refine ⟨value, ctx1, cases, none, hval, hcases, by rw [← he]; rfl, ?_, ?_⟩
        · intro _
          rw [← he]
          exact ⟨rfl, rfl⟩
        · intro c hc hcterm hcsome
          have := check_switch_cases_nonterm env ck acases _ _ _ _ _ _ hcases
            c hc hcterm hcsome
          rw [this] at hcsome
          exact Bool.noConfusion hcsome
      next t =>
        simp only [Option.some.injEq, Prod.mk.injEq] at h
        obtain ⟨he, hctx⟩ := h
        subst hctx
        refine ⟨value, ctx1, cases, some t, hval, hcases, by rw [← he]; rfl, ?_, ?_⟩
        · intro hterm
          have := check_switch_cases_all_term env ck acases _ _ _ _ _ _ hcases hterm
          exact Option.noConfusion this
        · intro c hc hcterm hcsome
          have := check_switch_cases_nonterm env ck acases _ _ _ _ _ _ hcases
            c hc hcterm hcsome
          rw [this, ← he]
          rfl

/-- A context binding `x` to `int`. -/
def ctx_switch : Context :=
  ⟨[⟨0, none, none, [⟨.o_bind, .base "x", .base "x", .scalar 0 .intS, none⟩]⟩],
    1, false, 0, none, none⟩

/-- The AST of the scrutinee `x`. -/
def switch_value_ast : AstExpression := .mk loc_ex (.access_ident (.base "x"))

/-- The AST cases of `switch x { case 0 => 7, case 1 => 8 }`. -/
def switch_cases_ast : List AstSwitchCase :=
  [⟨[.mk loc_ex (.constant (.intC .intS 0))], .mk loc_ex (.constant (.intC .intS 7))⟩,
   ⟨[.mk loc_ex (.constant (.intC .intS 1))], .mk loc_ex (.constant (.intC .intS 8))⟩]

/-- The typed switch node produced for that program: both case bodies
have type `int` and do not terminate, so the node's result is `int`. -/
def switch_node_ex : Expression :=
  .mk (some (.scalar 0 .intS)) false
    (.switchE
      (.mk (some (.scalar 0 .intS)) false
        (.access_ident ⟨.o_bind, .base "x", .base "x", .scalar 0 .intS⟩))
      [⟨[.mk (some (.scalar 0 .intS)) false (.constant (.ival 0))],
        .mk (some (.scalar 0 .intS)) false (.constant (.ival 7))⟩,
       ⟨[.mk (some (.scalar 0 .intS)) false (.constant (.ival 1))],
        .mk (some (.scalar 0 .intS)) false (.constant (.ival 8))⟩])

/-- Witness for claim C8: the concrete switch over `x: int` with two
non-terminating `int` cases checks successfully and
`c8_switch_checking` applies to it. -/
theorem c8_switch_checking_witness :
    SwitchSpec env_ex (check_expression env_ex 1) ctx_switch switch_value_ast
      switch_cases_ast switch_node_ex ctx_switch :=
  c8_switch_checking.2.2.2 env_ex (check_expression env_ex 1) ctx_switch
    switch_value_ast switch_cases_ast switch_node_ex ctx_switch rfl

/-- When the checked value already has the target type, no cast node is
introduced. -/
theorem lower_implicit_cast_eq (tgt : Ty) (e : Expression) (h : e.result = some tgt) :
    lower_implicit_cast tgt e = e := by
  unfold lower_implicit_cast
  rw [if_pos h]

/-- When the checked value's type differs from the target, the stored
value is a plain cast node whose inner expression is the original value
and whose result is the target (its secondary type left NULL). -/
theorem lower_implicit_cast_ne (tgt : Ty) (e : Expression) (h : e.result ≠ some tgt) :
    lower_implicit_cast tgt e = .mk (some tgt) e.terminates (.cast .ccast none e) := by
  unfold lower_implicit_cast
  rw [if_neg h]

/-- The guarded lowering in `check_expr_return` equals an unconditional
`lower_implicit_cast` (the guard repeats the cast's own test). -/
theorem return_lower (result : Ty) (rval : Expression) :
    (if some result ≠ rval.result then lower_implicit_cast result rval else rval)
      = lower_implicit_cast result rval := by
  by_cases h : some result = rval.result
  · rw [if_neg (fun hne => hne h)]
    exact (lower_implicit_cast_eq result rval h.symm).symm
  · rw [if_pos h]

/-- The checked variadic array of `lower_vaargs` is itself the output of
a `check_expression` call (on the synthetic array literal). -/
theorem lower_vaargs_ck (ck : CheckFn) (ctx : Context) (args : List AstCallArgument)
    (loc : Loc) (member : Ty) (vaargs : Expression) (ctx1 : Context)
    (h : lower_vaargs ck ctx args loc member = some (vaargs, ctx1)) :
    ∃ a hint c2, ck ctx a hint = some (vaargs, c2) := by
  unfold lower_vaargs at h
  simp only [] at h
  split at h
  next => exact Option.noConfusion h
  next va ctxa hck =>
    split at h
    next => exact Option.noConfusion h
    next vres hres =>
      split at h
      next =>
        split at h
        next =>
          simp only [Option.some.injEq, Prod.mk.injEq] at h
          obtain ⟨hv, -⟩ := h
          subst hv
          exact ⟨_, _, ctxa, hck⟩
        next => exact Option.noConfusion h
      next => exact Option.noConfusion h

/-- The contextual hint used for a binding's initializer: the interned
declared type with the binding flags merged, when a type is declared. -/
def binding_hint (ab : AstBinding) : Option Ty :=
  match ab.ty with
  | some t => some (t.withFlags (t.flags ||| ab.flags))
  | none => none

/-- Every produced binding entry stores the implicit lowering of a
checked initializer (checked under the declared-type hint) to the
binding's type. -/
theorem check_bindings_forall (env : Externals) (ck : CheckFn)
    (abs : List AstBinding) :
    ∀ ctx entries ctx',
      check_bindings env ck ctx abs = some (entries, ctx') →
      List.Forall₂ (fun (ab : AstBinding) (entry : BindingEntry) =>
        ∃ v c1 c2, ck c1 ab.initializer (binding_hint ab) = some (v, c2)
          ∧ entry.initializer = lower_implicit_cast entry.obj.ty v) abs entries := by
  induction abs with
  | nil =>
      intro ctx entries ctx' h
      rw [check_bindings] at h
      simp only [Option.some.injEq, Prod.mk.injEq] at h
      rw [← h.1]
      exact List.Forall₂.nil
  | cons ab rest ih =>
      intro ctx entries ctx' h
      rw [check_bindings] at h
      simp only [] at h
      split at h
      next => exact Option.noConfusion h
      next initializer ctx1 hck =>
        split at h
        next => exact Option.noConfusion h
        next ty hty =>
          split at h
          next => exact Option.noConfusion h
          next => exact Option.noConfusion h
          next n hsz =>
            split at h
            next => exact Option.noConfusion h
            next ires hires =>
              split at h
              next hassign =>
                split at h
                next hstatic =>
                  split at h
                  next => exact Option.noConfusion h
                  next value heval =>
                    split at h
                    next => exact Option.noConfusion h
                    next entries0 ctx4 hrec =>
                      simp only [Option.some.injEq, Prod.mk.injEq] at h
                      obtain ⟨hcons, -⟩ := h
                      rw [← hcons]
                      exact List.Forall₂.cons ⟨initializer, ctx, ctx1, hck, rfl⟩
                        (ih _ _ _ hrec)
                next hnstatic =>
                  split at h
                  next => exact Option.noConfusion h
                  next entries0 ctx4 hrec =>
                    simp only [Option.some.injEq, Prod.mk.injEq] at h
                    obtain ⟨hcons, -⟩ := h
                    rw [← hcons]
                    exact List.Forall₂.cons ⟨initializer, ctx, ctx1, hck, rfl⟩
                      (ih _ _ _ hrec)
              next => exact Option.noConfusion h

/-- Every produced call argument is the implicit lowering, to its
parameter's type, of an expression produced by a `check_expression`
call (the regular argument, or the synthetic variadic array literal). -/
theorem check_call_args_forall (env : Externals) (ck : CheckFn) :
    ∀ (aargs : List AstCallArgument) (ptys : List Ty) (vari : Variadism)
      (ctx : Context) (argvs : List Expression) (ctx' : Context),
      check_call_args env ck ctx ptys vari aargs = some (argvs, ctx') →
      List.Forall₂ (fun (pty : Ty) (argv : Expression) =>
        ∃ v, argv = lower_implicit_cast pty v
          ∧ ∃ a hint c1 c2, ck c1 a hint = some (v, c2)) ptys argvs := by
  intro aargs
  induction aargs with
  | nil =>
      intro ptys vari ctx argvs ctx' h
      cases ptys with
      | nil =>
          rw [check_call_args] at h
          simp only [Option.some.injEq, Prod.mk.injEq] at h
          rw [← h.1]
          exact List.Forall₂.nil
      | cons p ps =>
          rw [check_call_args] at h
          exact Option.noConfusion h
  | cons aarg arest ih =>
      intro ptys vari ctx argvs ctx' h
      cases ptys with
      | nil =>
          rw [check_call_args] at h
          exact Option.noConfusion h
      | cons pty prest =>
          rw [check_call_args] at h
          split at h
          next hc =>
            obtain ⟨hempty, -, -⟩ := hc
            have hprest : prest = [] := by
              cases prest with
              | nil => rfl
              | cons a b => exact absurd hempty (by simp [List.isEmpty])
            subst hprest
            split at h
            next => exact Option.noConfusion h
            next member hmem =>
              split at h
              next => exact Option.noConfusion h
              next vaargs ctx1 hlv =>
                simp only [Option.some.injEq, Prod.mk.injEq] at h
                obtain ⟨hargs, -⟩ := h
                rw [← hargs]
                obtain ⟨a, hint, c2, hcka⟩ := lower_vaargs_ck ck ctx _ _ _ _ _ hlv
                exact List.Forall₂.cons ⟨vaargs, rfl, a, hint, ctx, c2, hcka⟩
                  List.Forall₂.nil
          next hc =>
            split at h
            next => exact Option.noConfusion h
            next value ctx1 hcka =>
              split at h
              next => exact Option.noConfusion h
              next vres hres =>
                split at h
                next hassign =>
                  split at h
                  next => exact Option.noConfusion h
                  next vs ctx2 hrec =>
                    simp only [Option.some.injEq, Prod.mk.injEq] at h
                    obtain ⟨hargs, -⟩ := h
                    rw [← hargs]
                    exact List.Forall₂.cons
                      ⟨value, rfl, aarg.value, some pty, ctx, ctx1, hcka⟩
                      (ih _ _ _ _ _ hrec)
                next => exact Option.noConfusion h

/-- With a hinted element type, every stored array element is the
implicit lowering of its checked value to that type. -/
theorem check_array_items_forall (env : Externals) (ck : CheckFn) :
    ∀ (items : List AstArrayConstant) (t : Ty) (ctx : Context)
      (stored : List Expression) (ty2 : Option Ty) (len : Nat) (exp : Bool)
      (ctx' : Context),
      check_array_items env ck ctx (some t) items = some (stored, ty2, len, exp, ctx') →
      List.Forall₂ (fun (item : AstArrayConstant) (sv : Expression) =>
        ∃ v c1 c2, ck c1 item.value (some t) = some (v, c2)
          ∧ sv = lower_implicit_cast t v) items stored := by
  intro items
  induction items with
  | nil =>
      intro t ctx stored ty2 len exp ctx' h
      rw [check_array_items] at h
      simp only [Option.some.injEq, Prod.mk.injEq] at h
      rw [← h.1]
      exact List.Forall₂.nil
  | cons item rest ih =>
      intro t ctx stored ty2 len exp ctx' h
      rw [check_array_items] at h
      simp only [] at h
      split at h
      next => exact Option.noConfusion h
      next value ctx1 hck =>
        split at h
        next => exact Option.noConfusion h
        next sv ty1 hstep =>
          split at h
          next => exact Option.noConfusion h
          next =>
            split at h
            next => exact Option.noConfusion h
            next vs ty2b len2 exp2 ctx2 hrec =>
              simp only [Option.some.injEq, Prod.mk.injEq] at h
              obtain ⟨hstored, -⟩ := h
              rw [← hstored]
              -- characterize the step: in the hinted case the stored value
              -- is the lowering and the element type stays the hint
              have hsv : sv = lower_implicit_cast t value ∧ ty1 = some t := by
                split at hstep
                next => exact Option.noConfusion hstep
                next vres hres =>
                  split at hstep
                  next =>
                    simp only [Option.some.injEq, Prod.mk.injEq] at hstep
                    exact ⟨hstep.1.symm, hstep.2.symm⟩
                  next => exact Option.noConfusion hstep
              obtain ⟨hsv1, hty1⟩ := hsv
              rw [hty1] at hrec
              exact List.Forall₂.cons ⟨value, ctx, ctx1, hck, hsv1⟩
                (ih _ _ _ _ _ _ _ hrec)

/-- What a successful assignment guarantees: the object was checked with
no hint, the value under the object's result type as hint, and the
stored value is the implicit lowering of the checked value to the
assignment target — the pointer referent for indirect assignments, the
object's own type otherwise. -/
theorem check_expr_assign_lower (env : Externals) (ck : CheckFn) (ctx : Context)
    (op : Nat) (ind : Bool) (aobject avalue : AstExpression) (e : Expression)
    (ctx' : Context)
    (h : check_expr_assign env ck ctx op ind aobject avalue = some (e, ctx')) :
    ∃ object v ctx1 tgt,
      ck ctx aobject none = some (object, ctx1)
      ∧ ck ctx1 avalue object.result = some (v, ctx')
      ∧ ((ind = true ∧ ∃ f pf, object.result = some (.pointer f pf tgt))
          ∨ (ind = false ∧ object.result = some tgt))
      ∧ e = .mk (some builtin_type_void) false
          (.assign op ind object (lower_implicit_cast tgt v)) := by
  unfold check_expr_assign at h
  split at h
  next => exact Option.noConfusion h
  next object ctx1 hobj =>
    split at h
    next => exact Option.noConfusion h
    next value ctx2 hval =>
      split at h
      next hind =>
        split at h
        next => exact Option.noConfusion h
        next ores hores =>
          split at h
          next f pf referent =>
            split at h
            next hnull =>
              split at h
              next => exact Option.noConfusion h
              next vres hvres =>
                split at h
                next hassign =>
                  simp only [Option.some.injEq, Prod.mk.injEq] at h
                  obtain ⟨he, hctx⟩ := h
                  subst hctx
                  exact ⟨object, value, ctx1, referent, hobj, hval,
                    Or.inl ⟨hind, f, pf, hores⟩, he.symm⟩
                next => exact Option.noConfusion h
            next => exact Option.noConfusion h
          next => exact Option.noConfusion h
      next hind =>
        split at h
        next hacc =>
          split at h
          next => exact Option.noConfusion h
          next ores hores =>
            split at h
            next hconst =>
              split at h
              next => exact Option.noConfusion h
              next vres hvres =>
                split at h
                next hassign =>
                  simp only [Option.some.injEq, Prod.mk.injEq] at h
                  obtain ⟨he, hctx⟩ := h
                  subst hctx
                  exact ⟨object, value, ctx1, ores, hobj, hval,
                    Or.inr ⟨by simpa using hind, hores⟩, he.symm⟩
                next => exact Option.noConfusion h
            next => exact Option.noConfusion h
        next => exact Option.noConfusion h

/-- What a successful valued return guarantees: the enclosing function
type exists, the value was checked under its result-type hint, and the
stored value is the implicit lowering of the checked value to the
function's result type. -/
theorem check_expr_return_lower (env : Externals) (ck : CheckFn) (ctx : Context)
    (av : AstExpression) (e : Expression) (ctx' : Context)
    (h : check_expr_return env ck ctx (some av) = some (e, ctx')) :
    ∃ fl vari ps result rval,
      ctx.current_fntype = some (.funcTy fl vari ps result)
      ∧ ck ctx av (some result) = some (rval, ctx')
      ∧ e = .mk (some builtin_type_void) true
          (.returnE (some (lower_implicit_cast result rval))) := by
  rw [check_expr_return] at h
  split at h
  next => exact Option.noConfusion h
  next fntype hfn =>
    split at h
    next fl vari ps result =>
      split at h
      next => exact Option.noConfusion h
      next rval ctx1 hck =>
        split at h
        next => exact Option.noConfusion h
        next rres hres =>
          split at h
          next hassign =>
            simp only [] at h
            rw [return_lower] at h
            simp only [Option.some.injEq, Prod.mk.injEq] at h
            obtain ⟨he, hctx⟩ := h
            subst hctx
            exact ⟨fl, vari, ps, result, rval, hfn, hck, he.symm⟩
          next => exact Option.noConfusion h
    next => exact Option.noConfusion h

/-- Claim C5.  Implicit-cast materialization: `lower_implicit_cast`
returns the value unchanged exactly when its result already is the
target type and otherwise wraps it in a cast node whose inner expression
is the original checked value and whose result is the target; and every
assignment, binding initializer, return value, call argument, and
(hinted) array element is stored through `lower_implicit_cast` applied
to the corresponding checked value and target type. -/
theorem c5_implicit_cast_materialization :
    (∀ (tgt : Ty) (e : Expression), e.result = some tgt →
      lower_implicit_cast tgt e = e)
    ∧ (∀ (tgt : Ty) (e : Expression), e.result ≠ some tgt →
      lower_implicit_cast tgt e = .mk (some tgt) e.terminates (.cast .ccast none e))
    ∧ (∀ (env : Externals) (ck : CheckFn) (ctx : Context) (op : Nat) (ind : Bool)
        (aobject avalue : AstExpression) (e : Expression) (ctx' : Context),
      check_expr_assign env ck ctx op ind aobject avalue = some (e, ctx') →
      ∃ object v ctx1 tgt,
        ck ctx aobject none = some (object, ctx1)
        ∧ ck ctx1 avalue object.result = some (v, ctx')
        ∧ ((ind = true ∧ ∃ f pf, object.result = some (.pointer f pf tgt))
            ∨ (ind = false ∧ object.result = some tgt))
        ∧ e = .mk (some builtin_type_void) false
            (.assign op ind object (lower_implicit_cast tgt v)))
    ∧ (∀ (env : Externals) (ck : CheckFn) (abs : List AstBinding)
        (ctx : Context) (entries : List BindingEntry) (ctx' : Context),
      check_bindings env ck ctx abs = some (entries, ctx') →
      List.Forall₂ (fun (ab : AstBinding) (entry : BindingEntry) =>
        ∃ v c1 c2, ck c1 ab.initializer (binding_hint ab) = some (v, c2)
          ∧ entry.initializer = lower_implicit_cast entry.obj.ty v) abs entries)
    ∧ (∀ (env : Externals) (ck : CheckFn) (ctx : Context) (av : AstExpression)
        (e : Expression) (ctx' : Context),
      check_expr_return env ck ctx (some av) = some (e, ctx') →
      ∃ fl vari ps result rval,
        ctx.current_fntype = some (.funcTy fl vari ps result)
        ∧ ck ctx av (some result) = some (rval, ctx')
        ∧ e = .mk (some builtin_type_void) true
            (.returnE (some (lower_implicit_cast result rval))))
    ∧ (∀ (env : Externals) (ck : CheckFn) (aargs : List AstCallArgument)
        (ptys : List Ty) (vari : Variadism) (ctx : Context)
        (argvs : List Expression) (ctx' : Context),
      check_call_args env ck ctx ptys vari aargs = some (argvs, ctx') →
      List.Forall₂ (fun (pty : Ty) (argv : Expression) =>
        ∃ v, argv = lower_implicit_cast pty v
          ∧ ∃ a hint c1 c2, ck c1 a hint = some (v, c2)) ptys argvs)
    ∧ (∀ (env : Externals) (ck : CheckFn) (items : List AstArrayConstant) (t : Ty)
        (ctx : Context) (stored : List Expression) (ty2 : Option Ty) (len : Nat)
        (exp : Bool) (ctx' : Context),
      check_array_items env ck ctx (some t) items = some (stored, ty2, len, exp, ctx') →
      List.Forall₂ (fun (item : AstArrayConstant) (sv : Expression) =>
        ∃ v c1 c2, ck c1 item.value (some t) = some (v, c2)
          ∧ sv = lower_implicit_cast t v) items stored) :=
  ⟨lower_implicit_cast_eq, lower_implicit_cast_ne,
    check_expr_assign_lower,
    check_bindings_forall,
    check_expr_return_lower,
    check_call_args_forall,
    check_array_items_forall⟩

/-- Externals accepting every assignment, used by the C5 witness. -/
def env_assign : Externals :=
  { type_is_assignable := fun _ _ => true
    type_is_castable := fun _ _ => true
    ty_size := fun _ => some 8
    eval_expr := fun e => some e }

/-- The binding `let y: size = 0` (initializer of type `int`, so an
implicit cast must be materialized). -/
def binding_ast_ex : AstBinding :=
  .mk "y" (some builtin_type_size) 0 false (.mk loc_ex (.constant (.intC .intS 0)))

/-- The binding entry produced for it: the stored initializer is a cast
node around the checked `int` constant. -/
def binding_entry_ex : BindingEntry :=
  .mk ⟨.o_bind, .base "y", .base "y", .scalar 0 .sizeS⟩
    (.mk (some builtin_type_size) false
      (.cast .ccast none (.mk (some (.scalar 0 .intS)) false (.constant (.ival 0)))))

/-- The context after the binding inserted `y`. -/
def ctx_bind_after : Context :=
  ⟨[⟨0, none, none, [⟨.o_bind, .base "y", .base "y", .scalar 0 .sizeS, none⟩]⟩],
    1, false, 0, none, none⟩

/-- Witness for claim C5: the concrete binding `let y: size = 0` checks
successfully and its stored initializer is the materialized implicit
cast of the checked `int` constant; and on that constant
`lower_implicit_cast` to `size` produces exactly the cast node. -/
theorem c5_implicit_cast_materialization_witness :
    List.Forall₂ (fun (ab : AstBinding) (entry : BindingEntry) =>
      ∃ v c1 c2, check_expression env_assign 1 c1 ab.initializer (binding_hint ab)
          = some (v, c2)
        ∧ entry.initializer = lower_implicit_cast entry.obj.ty v)
      [binding_ast_ex] [binding_entry_ex]
    ∧ lower_implicit_cast builtin_type_size index_ex
        = .mk (some builtin_type_size) false (.cast .ccast none index_ex) :=
  ⟨c5_implicit_cast_materialization.2.2.2.1 env_assign (check_expression env_assign 1)
      [binding_ast_ex] ctx_unit [binding_entry_ex] ctx_bind_after rfl,
    c5_implicit_cast_materialization.2.1 builtin_type_size index_ex (by decide)⟩

/-- The scope identities (pointer values) of the context's scope stack,
innermost first. -/
def sids (ctx : Context) : List Nat := ctx.scope.map ScopeFrame.sid

/-- A checking function that, on success, restores the scope stack it
was entered with (claim C10's induction hypothesis shape). -/
def ScopePreserving (ck : CheckFn) : Prop :=
  ∀ ctx ae hint e ctx', ck ctx ae hint = some (e, ctx') → sids ctx' = sids ctx

theorem sids_insert_current (ctx : Context) (o : ScopeObject) :
    sids (ctx_insert_current ctx o) = sids ctx := by
  unfold ctx_insert_current
  split
  · rfl
  next f rest heq => simp [sids, frame_insert, heq]

theorem sids_set_scope_type (ctx : Context) (k : ExprType) :
    sids (ctx_set_scope_type ctx k) = sids ctx := by
  unfold ctx_set_scope_type
  split
  · rfl
  next f rest heq => simp [sids, heq]

theorem sids_set_scope_label (ctx : Context) (l : Option String) :
    sids (ctx_set_scope_label ctx l) = sids ctx := by
  unfold ctx_set_scope_label
  split
  · rfl
  next f rest heq => simp [sids, heq]

theorem sids_scope_push (ctx : Context) :
    sids (scope_push ctx) = ctx.nextSid :: sids ctx := by
  simp [sids, scope_push]

theorem sids_scope_pop (ctx : Context) :
    sids (scope_pop ctx) = (sids ctx).tail := by
  unfold scope_pop sids
  cases ctx.scope <;> simp

theorem sids_deferring (ctx : Context) (b : Bool) :
    sids { ctx with deferring := b } = sids ctx := rfl

/-- `check_expr_access_ident` leaves the context untouched. -/
theorem check_expr_access_ident_sids (ctx : Context) (i : Identifier)
    (e : Expression) (ctx' : Context)
    (h : check_expr_access_ident ctx i = some (e, ctx')) : sids ctx' = sids ctx := by
  unfold check_expr_access_ident at h
  split at h
  next => exact Option.noConfusion h
  next obj hobj =>
    split at h
    next =>
      split at h
      next => exact Option.noConfusion h
      next v hv =>
        simp only [Option.some.injEq, Prod.mk.injEq] at h
        rw [← h.2]
    next =>
      simp only [Option.some.injEq, Prod.mk.injEq] at h
      rw [← h.2]
    next =>
      simp only [Option.some.injEq, Prod.mk.injEq] at h
      rw [← h.2]
    next => exact Option.noConfusion h

/-- `check_opt` preserves the scope stack when `ck` does. -/
theorem check_opt_sids (ck : CheckFn) (hp : ScopePreserving ck) (ctx : Context)
    (a : Option AstExpression) (hint : Option Ty) (r : Option Expression)
    (ctx' : Context) (h : check_opt ck ctx a hint = some (r, ctx')) :
    sids ctx' = sids ctx := by
  unfold check_opt at h
  split at h
  next =>
    simp only [Option.some.injEq, Prod.mk.injEq] at h
    rw [← h.2]
  next ae =>
    split at h
    next => exact Option.noConfusion h
    next e1 ctx1 hck =>
      simp only [Option.some.injEq, Prod.mk.injEq] at h
      rw [← h.2]
      exact hp _ _ _ _ _ hck

/-- `check_expr_access_index` preserves the scope stack. -/
theorem check_expr_access_index_sids (env : Externals) (ck : CheckFn)
    (hp : ScopePreserving ck) (ctx : Context) (aarray aindex : AstExpression)
    (e : Expression) (ctx' : Context)
    (h : check_expr_access_index env ck ctx aarray aindex = some (e, ctx')) :
    sids ctx' = sids ctx := by
  unfold check_expr_access_index at h
  split at h
  next => exact Option.noConfusion h
  next array ctx1 hck1 =>
    split at h
    next => exact Option.noConfusion h
    next index ctx2 hck2 =>
      split at h
      next => exact Option.noConfusion h
      next ares hares =>
        split at h
        next => exact Option.noConfusion h
        next atype hatype =>
          split at h
          next => exact Option.noConfusion h
          next ires hires =>
            split at h
            next hstor =>
              split at h
              next =>
                simp only [] at h
                split at h <;> exact Option.noConfusion h
              next member hmem =>
                simp only [] at h
                split at h
                next hint =>
                  simp only [Option.some.injEq, Prod.mk.injEq] at h
                  rw [← h.2]
                  exact (hp _ _ _ _ _ hck2).trans (hp _ _ _ _ _ hck1)
                next => exact Option.noConfusion h
            next => exact Option.noConfusion h

/-- `check_expr_access_field` preserves the scope stack. -/
theorem check_expr_access_field_sids (ck : CheckFn) (hp : ScopePreserving ck)
    (ctx : Context) (astrct : AstExpression) (field : String)
    (e : Expression) (ctx' : Context)
    (h : check_expr_access_field ck ctx astrct field = some (e, ctx')) :
    sids ctx' = sids ctx := by
  unfold check_expr_access_field at h
  split at h
  next => exact Option.noConfusion h
  next strct ctx1 hck =>
    split at h
    next => exact Option.noConfusion h
    next sres hres =>
      split at h
      next => exact Option.noConfusion h
      next stype hderef =>
        split at h
        next =>
          split at h
          next => exact Option.noConfusion h
          next fty hfty =>
            simp only [Option.some.injEq, Prod.mk.injEq] at h
            rw [← h.2]
            exact hp _ _ _ _ _ hck
        next => exact Option.noConfusion h

/-- `check_expr_assert` preserves the scope stack. -/
theorem check_expr_assert_sids (env : Externals) (ck : CheckFn)
    (hp : ScopePreserving ck) (ctx : Context) (loc : Loc)
    (acond amessage : Option AstExpression) (e : Expression) (ctx' : Context)
    (h : check_expr_assert env ck ctx loc acond amessage = some (e, ctx')) :
    sids ctx' = sids ctx := by
  unfold check_expr_assert at h
  simp only [] at h
  split at h
  next => exact Option.noConfusion h
  next cond term ctx1 hcond =>
    have hc1 : sids ctx1 = sids ctx := by
      split at hcond
      next ac =>
        split at hcond
        next => exact Option.noConfusion hcond
        next cnd ctxa hck =>
          split at hcond
          next => exact Option.noConfusion hcond
          next cres hres =>
            split at hcond
            next =>
              simp only [Option.some.injEq, Prod.mk.injEq] at hcond
              rw [← hcond.2.2]
              exact hp _ _ _ _ _ hck
            next => exact Option.noConfusion hcond
      next =>
        simp only [Option.some.injEq, Prod.mk.injEq] at hcond
        rw [← hcond.2.2]
    split at h
    next am =>
      split at h
      next => exact Option.noConfusion h
      next message ctx2 hck2 =>
        split at h
        next => exact Option.noConfusion h
        next mres hres2 =>
          split at h
          next =>
            simp only [Option.some.injEq, Prod.mk.injEq] at h
            rw [← h.2]
            exact (hp _ _ _ _ _ hck2).trans hc1
          next => exact Option.noConfusion h
    next =>
      simp only [Option.some.injEq, Prod.mk.injEq] at h
      rw [← h.2]
      exact hc1

/-- `check_expr_assign` preserves the scope stack. -/
theorem check_expr_assign_sids (env : Externals) (ck : CheckFn)
    (hp : ScopePreserving ck) (ctx : Context) (op : Nat) (ind : Bool)
    (aobject avalue : AstExpression) (e : Expression) (ctx' : Context)
    (h : check_expr_assign env ck ctx op ind aobject avalue = some (e, ctx')) :
    sids ctx' = sids ctx := by
  obtain ⟨object, v, ctx1, tgt, hobj, hval, -, -⟩ :=
    check_expr_assign_lower env ck ctx op ind aobject avalue e ctx' h
  exact (hp _ _ _ _ _ hval).trans (hp _ _ _ _ _ hobj)

/-- `check_expr_binarithm` preserves the scope stack. -/
theorem check_expr_binarithm_sids (env : Externals) (ck : CheckFn)
    (hp : ScopePreserving ck) (ctx : Context) (op : BinOp)
    (alvalue arvalue : AstExpression) (e : Expression) (ctx' : Context)
    (h : check_expr_binarithm env ck ctx op alvalue arvalue = some (e, ctx')) :
    sids ctx' = sids ctx := by
  unfold check_expr_binarithm at h
  split at h
  next => exact Option.noConfusion h
  next lvalue ctx1 hck1 =>
    split at h
    next => exact Option.noConfusion h
    next rvalue ctx2 hck2 =>
      split at h
      next => exact Option.noConfusion h
      next lres hl =>
        split at h
        next => exact Option.noConfusion h
        next rres hr =>
          split at h
          next =>
            simp only [Option.some.injEq, Prod.mk.injEq] at h
            rw [← h.2]
            exact (hp _ _ _ _ _ hck2).trans (hp _ _ _ _ _ hck1)
          next => exact Option.noConfusion h

/-- `check_expr_cast` preserves the scope stack. -/
theorem check_expr_cast_sids (env : Externals) (ck : CheckFn)
    (hp : ScopePreserving ck) (ctx : Context) (kind : CastKind) (secondary : Ty)
    (avalue : AstExpression) (e : Expression) (ctx' : Context)
    (h : check_expr_cast env ck ctx kind secondary avalue = some (e, ctx')) :
    sids ctx' = sids ctx := by
  unfold check_expr_cast at h
  split at h
  next => exact Option.noConfusion h
  next value ctx1 hck =>
    split at h
    next => exact Option.noConfusion h
    next vres hres =>
      split at h
      next =>
        split at h
        next =>
          simp only [Option.some.injEq, Prod.mk.injEq] at h
          rw [← h.2]
          exact hp _ _ _ _ _ hck
        next => exact Option.noConfusion h
      next => exact Option.noConfusion h

/-- `check_expr_defer` preserves the scope stack. -/
theorem check_expr_defer_sids (ck : CheckFn) (hp : ScopePreserving ck)
    (ctx : Context) (adeferred : AstExpression) (e : Expression) (ctx' : Context)
    (h : check_expr_defer ck ctx adeferred = some (e, ctx')) :
    sids ctx' = sids ctx := by
  unfold check_expr_defer at h
  split at h
  next => exact Option.noConfusion h
  next =>
    split at h
    next => exact Option.noConfusion h
    next deferred ctx1 hck =>
      simp only [Option.some.injEq, Prod.mk.injEq] at h
      rw [← h.2]
      exact hp { ctx with deferring := true } adeferred none deferred ctx1 hck

/-- `check_expr_control` preserves the scope stack. -/
theorem check_expr_control_sids (ctx : Context) (isBreak : Bool)
    (label : Option String) (e : Expression) (ctx' : Context)
    (h : check_expr_control ctx isBreak label = some (e, ctx')) :
    sids ctx' = sids ctx := by
  unfold check_expr_control at h
  split at h
  next => exact Option.noConfusion h
  next =>
    simp only [Option.some.injEq, Prod.mk.injEq] at h
    rw [← h.2]

/-- `check_expr_measure_len` preserves the scope stack. -/
theorem check_expr_measure_len_sids (env : Externals) (ck : CheckFn)
    (hp : ScopePreserving ck) (ctx : Context) (avalue : AstExpression)
    (e : Expression) (ctx' : Context)
    (h : check_expr_measure_len env ck ctx avalue = some (e, ctx')) :
    sids ctx' = sids ctx := by
  unfold check_expr_measure_len at h
  split at h
  next => exact Option.noConfusion h
  next value ctx1 hck =>
    split at h
    next => exact Option.noConfusion h
    next vres hres =>
      split at h
      next =>
        split at h
        next => exact Option.noConfusion h
        next n hn =>
          simp only [Option.some.injEq, Prod.mk.injEq] at h
          rw [← h.2]
          exact hp _ _ _ _ _ hck
      next => exact Option.noConfusion h

/-- `check_expr_return` preserves the scope stack. -/
theorem check_expr_return_sids (env : Externals) (ck : CheckFn)
    (hp : ScopePreserving ck) (ctx : Context) (avalue : Option AstExpression)
    (e : Expression) (ctx' : Context)
    (h : check_expr_return env ck ctx avalue = some (e, ctx')) :
    sids ctx' = sids ctx := by
  cases avalue with
  | none =>
      rw [check_expr_return] at h
      simp only [Option.some.injEq, Prod.mk.injEq] at h
      rw [← h.2]
  | some av =>
      obtain ⟨fl, vari, ps, result, rval, -, hck, -⟩ :=
        check_expr_return_lower env ck ctx av e ctx' h
      exact hp _ _ _ _ _ hck

/-- `check_expr_unarithm` preserves the scope stack. -/
theorem check_expr_unarithm_sids (ck : CheckFn) (hp : ScopePreserving ck)
    (ctx : Context) (op : UnOp) (aoperand : AstExpression) (e : Expression)
    (ctx' : Context)
    (h : check_expr_unarithm ck ctx op aoperand = some (e, ctx')) :
    sids ctx' = sids ctx := by
  unfold check_expr_unarithm at h
  split at h
  next => exact Option.noConfusion h
  next operand ctx1 hck =>
    repeat' (split at h)
    all_goals
      first
        | exact Option.noConfusion h
        | (simp only [Option.some.injEq, Prod.mk.injEq] at h
           rw [← h.2]
           exact hp _ _ _ _ _ hck)

/-- `check_slice_operand` preserves the scope stack. -/
theorem check_slice_operand_sids (ck : CheckFn) (hp : ScopePreserving ck)
    (ctx : Context) (a : Option AstExpression) (r : Option Expression)
    (ctx' : Context) (h : check_slice_operand ck ctx a = some (r, ctx')) :
    sids ctx' = sids ctx := by
  unfold check_slice_operand at h
  split at h
  next =>
    simp only [Option.some.injEq, Prod.mk.injEq] at h
    rw [← h.2]
  next ae =>
    split at h
    next => exact Option.noConfusion h
    next e1 ctx1 hck =>
      repeat' (split at h)
      all_goals
        first
          | exact Option.noConfusion h
          | (simp only [Option.some.injEq, Prod.mk.injEq] at h
             rw [← h.2]
             exact hp _ _ _ _ _ hck)

/-- `check_expr_slice` preserves the scope stack. -/
theorem check_expr_slice_sids (ck : CheckFn) (hp : ScopePreserving ck)
    (ctx : Context) (aobject : AstExpression) (astart afinish : Option AstExpression)
    (e : Expression) (ctx' : Context)
    (h : check_expr_slice ck ctx aobject astart afinish = some (e, ctx')) :
    sids ctx' = sids ctx := by
  unfold check_expr_slice at h
  split at h
  next => exact Option.noConfusion h
  next object ctx1 hck =>
    split at h
    next => exact Option.noConfusion h
    next ores hres =>
      split at h
      next => exact Option.noConfusion h
      next atype hderef =>
        split at h
        next =>
          split at h
          next => exact Option.noConfusion h
          next start ctx2 hstart =>
            split at h
            next => exact Option.noConfusion h
            next finish ctx3 hfin =>
              split at h
              next => exact Option.noConfusion h
              next member hmem =>
                simp only [Option.some.injEq, Prod.mk.injEq] at h
                rw [← h.2]
                exact ((check_slice_operand_sids ck hp _ _ _ _ hfin).trans
                  (check_slice_operand_sids ck hp _ _ _ _ hstart)).trans
                  (hp _ _ _ _ _ hck)
        next => exact Option.noConfusion h

/-- `lower_vaargs` preserves the scope stack. -/
theorem lower_vaargs_sids (ck : CheckFn) (hp : ScopePreserving ck)
    (ctx : Context) (args : List AstCallArgument) (loc : Loc) (member : Ty)
    (vaargs : Expression) (ctx1 : Context)
    (h : lower_vaargs ck ctx args loc member = some (vaargs, ctx1)) :
    sids ctx1 = sids ctx := by
  unfold lower_vaargs at h
  simp only [] at h
  split at h
  next => exact Option.noConfusion h
  next va ctxa hck =>
    repeat' (split at h)
    all_goals
      first
        | exact Option.noConfusion h
        | (simp only [Option.some.injEq, Prod.mk.injEq] at h
           rw [← h.2]
           exact hp _ _ _ _ _ hck)

/-- `check_call_args` preserves the scope stack. -/
theorem check_call_args_sids (env : Externals) (ck : CheckFn)
    (hp : ScopePreserving ck) :
    ∀ (aargs : List AstCallArgument) (ptys : List Ty) (vari : Variadism)
      (ctx : Context) (argvs : List Expression) (ctx' : Context),
      check_call_args env ck ctx ptys vari aargs = some (argvs, ctx') →
      sids ctx' = sids ctx := by
  intro aargs
  induction aargs with
  | nil =>
      intro ptys vari ctx argvs ctx' h
      cases ptys with
      | nil =>
          rw [check_call_args] at h
          simp only [Option.some.injEq, Prod.mk.injEq] at h
          rw [← h.2]
      | cons p ps =>
          rw [check_call_args] at h
          exact Option.noConfusion h
  | cons aarg arest ih =>
      intro ptys vari ctx argvs ctx' h
      cases ptys with
      | nil =>
          rw [check_call_args] at h
          exact Option.noConfusion h
      | cons pty prest =>
          rw [check_call_args] at h
          split at h
          next hc =>
            split at h
            next => exact Option.noConfusion h
            next member hmem =>
              split at h
              next => exact Option.noConfusion h
              next va ctx1 hlv =>
                simp only [Option.some.injEq, Prod.mk.injEq] at h
                rw [← h.2]
                exact lower_vaargs_sids ck hp _ _ _ _ _ _ hlv
          next hc =>
            split at h
            next => exact Option.noConfusion h
            next value ctx1 hcka =>
              split at h
              next => exact Option.noConfusion h
              next vres hres =>
                split at h
                next hassign =>
                  split at h
                  next => exact Option.noConfusion h
                  next vs ctx2 hrec =>
                    simp only [Option.some.injEq, Prod.mk.injEq] at h
                    rw [← h.2]
                    exact (ih _ _ _ _ _ hrec).trans (hp _ _ _ _ _ hcka)
                next => exact Option.noConfusion h

/-- `check_expr_call` preserves the scope stack. -/
theorem check_expr_call_sids (env : Externals) (ck : CheckFn)
    (hp : ScopePreserving ck) (ctx : Context) (alvalue : AstExpression)
    (args : List AstCallArgument) (e : Expression) (ctx' : Context)
    (h : check_expr_call env ck ctx alvalue args = some (e, ctx')) :
    sids ctx' = sids ctx := by
  unfold check_expr_call at h
  split at h
  next => exact Option.noConfusion h
  next lvalue ctx1 hck =>
    split at h
    next => exact Option.noConfusion h
    next lres hres =>
      split at h
      next => exact Option.noConfusion h
      next fntype hderef =>
        split at h
        next fl vari params result =>
          split at h
          next => exact Option.noConfusion h
          next argvs ctx2 hargs =>
            simp only [Option.some.injEq, Prod.mk.injEq] at h
            rw [← h.2]
            exact (check_call_args_sids env ck hp _ _ _ _ _ _ hargs).trans
              (hp _ _ _ _ _ hck)
        next => exact Option.noConfusion h

/-- `check_struct_values` preserves the scope stack. -/
theorem check_struct_values_sids (ck : CheckFn) (hp : ScopePreserving ck) :
    ∀ (fields : List AstFieldValue) (ctx : Context)
      (values : List (String × Expression)) (ctx' : Context),
      check_struct_values ck ctx fields = some (values, ctx') →
      sids ctx' = sids ctx := by
  intro fields
  induction fields with
  | nil =>
      intro ctx values ctx' h
      rw [check_struct_values] at h
      simp only [Option.some.injEq, Prod.mk.injEq] at h
      rw [← h.2]
  | cons f rest ih =>
      intro ctx values ctx' h
      rw [check_struct_values] at h
      split at h
      next => exact Option.noConfusion h
      next value ctx1 hck =>
        split at h
        next => exact Option.noConfusion h
        next vs ctx2 hrec =>
          simp only [Option.some.injEq, Prod.mk.injEq] at h
          rw [← h.2]
          exact (ih _ _ _ hrec).trans (hp _ _ _ _ _ hck)

/-- `check_expr_struct` preserves the scope stack. -/
theorem check_expr_struct_sids (env : Externals) (ck : CheckFn)
    (hp : ScopePreserving ck) (ctx : Context) (autofill named : Bool)
    (fields : List AstFieldValue) (e : Expression) (ctx' : Context)
    (h : check_expr_struct env ck ctx autofill named fields = some (e, ctx')) :
    sids ctx' = sids ctx := by
  unfold check_expr_struct at h
  split at h
  next => exact Option.noConfusion h
  next =>
    split at h
    next => exact Option.noConfusion h
    next f rest =>
      split at h
      next => exact Option.noConfusion h
      next values ctx1 hvals =>
        simp only [] at h
        split at h
        next => exact Option.noConfusion h
        next entries hlower =>
          simp only [Option.some.injEq, Prod.mk.injEq] at h
          rw [← h.2]
          exact check_struct_values_sids ck hp _ _ _ _ hvals

/-- `check_case_options` preserves the scope stack. -/
theorem check_case_options_sids (env : Externals) (ck : CheckFn)
    (hp : ScopePreserving ck) :
    ∀ (aopts : List AstExpression) (ctx : Context) (ty : Option Ty)
      (opts : List Expression) (ctx' : Context),
      check_case_options env ck ctx ty aopts = some (opts, ctx') →
      sids ctx' = sids ctx := by
  intro aopts
  induction aopts with
  | nil =>
      intro ctx ty opts ctx' h
      rw [check_case_options] at h
      simp only [Option.some.injEq, Prod.mk.injEq] at h
      rw [← h.2]
  | cons aopt rest ih =>
      intro ctx ty opts ctx' h
      rw [check_case_options] at h
      split at h
      next => exact Option.noConfusion h
      next v ctx1 hck =>
        split at h
        next hty =>
          split at h
          next => exact Option.noConfusion h
          next ev heval =>
            split at h
            next => exact Option.noConfusion h
            next os ctx2 hrec =>
              simp only [Option.some.injEq, Prod.mk.injEq] at h
              rw [← h.2]
              exact (ih _ _ _ _ hrec).trans (hp _ _ _ _ _ hck)
        next => exact Option.noConfusion h

/-- `check_switch_cases` preserves the scope stack. -/
theorem check_switch_cases_sids (env : Externals) (ck : CheckFn)
    (hp : ScopePreserving ck) :
    ∀ (acases : List AstSwitchCase) (ctx : Context) (ty : Option Ty)
      (st0 : Option Ty) (cases : List SwitchCase) (state : Option Ty)
      (ctx' : Context),
      check_switch_cases env ck ctx ty st0 acases = some (cases, state, ctx') →
      sids ctx' = sids ctx := by
  intro acases
  induction acases with
  | nil =>
      intro ctx ty st0 cases state ctx' h
      rw [check_switch_cases] at h
      simp only [Option.some.injEq, Prod.mk.injEq] at h
      rw [← h.2.2]
  | cons acase rest ih =>
      intro ctx ty st0 cases state ctx' h
      rw [check_switch_cases] at h
      split at h
      next => exact Option.noConfusion h
      next opts ctx1 hopts =>
        split at h
        next => exact Option.noConfusion h
        next body ctx2 hbody =>
          split at h
          next => exact Option.noConfusion h
          next st hst =>
            split at h
            next => exact Option.noConfusion h
            next cs st2 ctx3 hrec =>
              simp only [Option.some.injEq, Prod.mk.injEq] at h
              rw [← h.2.2]
              exact ((ih _ _ _ _ _ _ hrec).trans (hp _ _ _ _ _ hbody)).trans
                (check_case_options_sids env ck hp _ _ _ _ _ hopts)

/-- `check_expr_switch` preserves the scope stack. -/
theorem check_expr_switch_sids (env : Externals) (ck : CheckFn)
    (hp : ScopePreserving ck) (ctx : Context) (avalue : AstExpression)
    (acases : List AstSwitchCase) (e : Expression) (ctx' : Context)
    (h : check_expr_switch env ck ctx avalue acases = some (e, ctx')) :
    sids ctx' = sids ctx := by
  unfold check_expr_switch at h
  split at h
  next => exact Option.noConfusion h
  next value ctx1 hck =>
    simp only [] at h
    split at h
    next => exact Option.noConfusion h
    next cases state ctx2 hcases =>
      split at h
      next =>
        simp only [Option.some.injEq, Prod.mk.injEq] at h
        rw [← h.2]
        exact (check_switch_cases_sids env ck hp _ _ _ _ _ _ _ hcases).trans
          (hp _ _ _ _ _ hck)
      next t =>
        simp only [Option.some.injEq, Prod.mk.injEq] at h
        rw [← h.2]
        exact (check_switch_cases_sids env ck hp _ _ _ _ _ _ _ hcases).trans
          (hp _ _ _ _ _ hck)

/-- `check_array_items` preserves the scope stack. -/
theorem check_array_items_sids (env : Externals) (ck : CheckFn)
    (hp : ScopePreserving ck) :
    ∀ (items : List AstArrayConstant) (ctx : Context) (ty : Option Ty)
      (stored : List Expression) (ty2 : Option Ty) (len : Nat) (exp : Bool)
      (ctx' : Context),
      check_array_items env ck ctx ty items = some (stored, ty2, len, exp, ctx') →
      sids ctx' = sids ctx := by
  intro items
  induction items with
  | nil =>
      intro ctx ty stored ty2 len exp ctx' h
      rw [check_array_items] at h
      simp only [Option.some.injEq, Prod.mk.injEq] at h
      rw [← h.2.2.2.2]
  | cons item rest ih =>
      intro ctx ty stored ty2 len exp ctx' h
      rw [check_array_items] at h
      simp only [] at h
      split at h
      next => exact Option.noConfusion h
      next value ctx1 hck =>
        split at h
        next => exact Option.noConfusion h
        next sv ty1 hstep =>
          split at h
          next => exact Option.noConfusion h
          next =>
            split at h
            next => exact Option.noConfusion h
            next vs ty2b len2 exp2 ctx2 hrec =>
              simp only [Option.some.injEq, Prod.mk.injEq] at h
              rw [← h.2.2.2.2]
              exact (ih _ _ _ _ _ _ _ hrec).trans (hp _ _ _ _ _ hck)

/-- `check_expr_array` preserves the scope stack. -/
theorem check_expr_array_sids (env : Externals) (ck : CheckFn)
    (hp : ScopePreserving ck) (ctx : Context) (items : List AstArrayConstant)
    (hint : Option Ty) (e : Expression) (ctx' : Context)
    (h : check_expr_array env ck ctx items hint = some (e, ctx')) :
    sids ctx' = sids ctx := by
  unfold check_expr_array at h
  simp only [] at h
  cases hint with
  | none =>
      split at h
      next => exact Option.noConfusion h
      next values ty1 len expandable ctx1 hitems =>
        have hc : sids ctx1 = sids ctx :=
          check_array_items_sids env ck hp _ _ _ _ _ _ _ _ hitems
        repeat' (split at h)
        all_goals
          first
            | exact Option.noConfusion h
            | (simp only [Option.some.injEq, Prod.mk.injEq] at h
               rw [← h.2]
               exact hc)
  | some hh =>
      split at h
      next => exact Option.noConfusion h
      next values ty1 len expandable ctx1 hitems =>
        have hc : sids ctx1 = sids ctx :=
          check_array_items_sids env ck hp _ _ _ _ _ _ _ _ hitems
        repeat' (split at h)
        all_goals
          first
            | exact Option.noConfusion h
            | (simp only [Option.some.injEq, Prod.mk.injEq] at h
               rw [← h.2]
               exact hc)

/-- `check_expr_constant` preserves the scope stack. -/
theorem check_expr_constant_sids (env : Externals) (ck : CheckFn)
    (hp : ScopePreserving ck) (ctx : Context) (c : AstConstant)
    (hint : Option Ty) (e : Expression) (ctx' : Context)
    (h : check_expr_constant env ck ctx c hint = some (e, ctx')) :
    sids ctx' = sids ctx := by
  cases c <;>
    first
      | (rw [check_expr_constant] at h
         exact check_expr_array_sids env ck hp _ _ _ _ _ h)
      | (rw [check_expr_constant] at h
         first
           | exact Option.noConfusion h
           | (simp only [Option.some.injEq, Prod.mk.injEq] at h
              rw [← h.2]))

/-- `check_bindings` preserves the scope stack: objects are inserted
into the current scope, which changes its contents but not its
identity. -/
theorem check_bindings_sids (env : Externals) (ck : CheckFn)
    (hp : ScopePreserving ck) :
    ∀ (abs : List AstBinding) (ctx : Context) (entries : List BindingEntry)
      (ctx' : Context),
      check_bindings env ck ctx abs = some (entries, ctx') →
      sids ctx' = sids ctx := by
  intro abs
  induction abs with
  | nil =>
      intro ctx entries ctx' h
      rw [check_bindings] at h
      simp only [Option.some.injEq, Prod.mk.injEq] at h
      rw [← h.2]
  | cons ab rest ih =>
      intro ctx entries ctx' h
      rw [check_bindings] at h
      simp only [] at h
      split at h
      next => exact Option.noConfusion h
      next initializer ctx1 hck =>
        split at h
        next => exact Option.noConfusion h
        next ty hty =>
          split at h
          next => exact Option.noConfusion h
          next => exact Option.noConfusion h
          next n hsz =>
            split at h
            next => exact Option.noConfusion h
            next ires hires =>
              split at h
              next hassign =>
                split at h
                next hstatic =>
                  split at h
                  next => exact Option.noConfusion h
                  next value heval =>
                    split at h
                    next => exact Option.noConfusion h
                    next entries0 ctx4 hrec =>
                      simp only [Option.some.injEq, Prod.mk.injEq] at h
                      rw [← h.2]
                      have h1 : sids ctx1 = sids ctx := hp _ _ _ _ _ hck
                      exact (ih _ _ _ hrec).trans
                        ((sids_insert_current _ _).trans h1)
                next hnstatic =>
                  split at h
                  next => exact Option.noConfusion h
                  next entries0 ctx4 hrec =>
                    simp only [Option.some.injEq, Prod.mk.injEq] at h
                    rw [← h.2]
                    have h1 : sids ctx1 = sids ctx := hp _ _ _ _ _ hck
                    exact (ih _ _ _ hrec).trans
                      ((sids_insert_current _ _).trans h1)
              next => exact Option.noConfusion h

/-- `check_expr_binding` preserves the scope stack. -/
theorem check_expr_binding_sids (env : Externals) (ck : CheckFn)
    (hp : ScopePreserving ck) (ctx : Context) (first : AstBinding)
    (rest : List AstBinding) (e : Expression) (ctx' : Context)
    (h : check_expr_binding env ck ctx first rest = some (e, ctx')) :
    sids ctx' = sids ctx := by
  unfold check_expr_binding at h
  split at h
  next => exact Option.noConfusion h
  next entries ctx1 hb =>
    simp only [Option.some.injEq, Prod.mk.injEq] at h
    rw [← h.2]
    exact check_bindings_sids env ck hp _ _ _ _ hb

/-- `check_list_exprs` preserves the scope stack. -/
theorem check_list_exprs_sids (ck : CheckFn) (hp : ScopePreserving ck) :
    ∀ (rest : List AstExpression) (a : AstExpression) (ctx : Context)
      (l : List Expression) (last : Expression) (ctx' : Context),
      check_list_exprs ck ctx a rest = some (l, last, ctx') →
      sids ctx' = sids ctx := by
  intro rest
  induction rest with
  | nil =>
      intro a ctx l last ctx' h
      rw [check_list_exprs] at h
      split at h
      next => exact Option.noConfusion h
      next e1 ctx1 hck =>
        simp only [Option.some.injEq, Prod.mk.injEq] at h
        rw [← h.2.2]
        exact hp _ _ _ _ _ hck
  | cons b rest2 ih =>
      intro a ctx l last ctx' h
      rw [check_list_exprs] at h
      split at h
      next => exact Option.noConfusion h
      next e1 ctx1 hck =>
        split at h
        next => exact Option.noConfusion h
        next l2 last2 ctx2 hrec =>
          simp only [Option.some.injEq, Prod.mk.injEq] at h
          rw [← h.2.2]
          exact (ih _ _ _ _ _ hrec).trans (hp _ _ _ _ _ hck)

/-- `check_expr_list` preserves the scope stack: the list scope is
pushed and popped around the expression walk. -/
theorem check_expr_list_sids (ck : CheckFn) (hp : ScopePreserving ck)
    (ctx : Context) (first : AstExpression) (rest : List AstExpression)
    (e : Expression) (ctx' : Context)
    (h : check_expr_list ck ctx first rest = some (e, ctx')) :
    sids ctx' = sids ctx := by
  unfold check_expr_list at h
  simp only [] at h
  split at h
  next => exact Option.noConfusion h
  next exprs last ctx2 hrec =>
    simp only [Option.some.injEq, Prod.mk.injEq] at h
    rw [← h.2]
    have h1 : sids ctx2 = sids (ctx_set_scope_type (scope_push ctx) .list) :=
      check_list_exprs_sids ck hp _ _ _ _ _ _ hrec
    rw [sids_scope_pop, h1, sids_set_scope_type, sids_scope_push]
    rfl

/-- `check_expr_for` preserves the scope stack: the for scope is pushed
and popped around the loop pieces. -/
theorem check_expr_for_sids (ck : CheckFn) (hp : ScopePreserving ck)
    (ctx : Context) (label : Option String) (abindings : Option AstExpression)
    (acond : AstExpression) (aafterthought : Option AstExpression)
    (abody : AstExpression) (e : Expression) (ctx' : Context)
    (h : check_expr_for ck ctx label abindings acond aafterthought abody
      = some (e, ctx')) :
    sids ctx' = sids ctx := by
  unfold check_expr_for at h
  simp only [] at h
  split at h
  next =>
    split at h
    next => exact Option.noConfusion h
    next bindings ctx2 hopt =>
      split at h
      next => exact Option.noConfusion h
      next cond ctx3 hcond =>
        split at h
        next => exact Option.noConfusion h
        next cres hres =>
          split at h
          next =>
            split at h
            next => exact Option.noConfusion h
            next afterthought ctx4 hopt2 =>
              split at h
              next => exact Option.noConfusion h
              next body ctx5 hbody =>
                simp only [Option.some.injEq, Prod.mk.injEq] at h
                rw [← h.2]
                have h5 : sids ctx5
                    = sids (ctx_set_scope_label
                        (ctx_set_scope_type (scope_push ctx) .forE) label) :=
                  (((hp _ _ _ _ _ hbody).trans
                    (check_opt_sids ck hp _ _ _ _ _ hopt2)).trans
                    (hp _ _ _ _ _ hcond)).trans
                    (check_opt_sids ck hp _ _ _ _ _ hopt)
                rw [sids_scope_pop, h5, sids_set_scope_label, sids_set_scope_type,
                  sids_scope_push]
                rfl
          next => exact Option.noConfusion h
  next => exact Option.noConfusion h

/-- `check_expr_if` preserves the scope stack. -/
theorem check_expr_if_sids (ck : CheckFn) (hp : ScopePreserving ck)
    (ctx : Context) (acond atrue : AstExpression) (afalse : Option AstExpression)
    (e : Expression) (ctx' : Context)
    (h : check_expr_if ck ctx acond atrue afalse = some (e, ctx')) :
    sids ctx' = sids ctx := by
  unfold check_expr_if at h
  split at h
  next => exact Option.noConfusion h
  next cond ctx1 hcond =>
    split at h
    next => exact Option.noConfusion h
    next true_branch ctx2 htrue =>
      split at h
      next af =>
        split at h
        next => exact Option.noConfusion h
        next false_branch ctx3 hfalse =>
          simp only [] at h
          split at h
          next => exact Option.noConfusion h
          next r hr =>
            split at h
            next => exact Option.noConfusion h
            next cres hres =>
              split at h
              next =>
                simp only [Option.some.injEq, Prod.mk.injEq] at h
                rw [← h.2]
                exact ((hp _ _ _ _ _ hfalse).trans (hp _ _ _ _ _ htrue)).trans
                  (hp _ _ _ _ _ hcond)
              next => exact Option.noConfusion h
      next =>
        split at h
        next => exact Option.noConfusion h
        next cres hres =>
          split at h
          next =>
            simp only [Option.some.injEq, Prod.mk.injEq] at h
            rw [← h.2]
            exact (hp _ _ _ _ _ htrue).trans (hp _ _ _ _ _ hcond)
          next => exact Option.noConfusion h

/-- C10: for every AST expression, a successful run of
`check_expression` leaves the scope stack of the context — and in
particular the current-scope pointer, modelled by the stack of scope
identities `sids` — equal to its value on entry: every scope pushed
while elaborating a `for` expression or an expression list is popped
before the elaboration returns. -/
theorem c10_scope_restored (env : Externals) (fuel : Nat)
    (ctx : Context) (ae : AstExpression) (hint : Option Ty)
    (e : Expression) (ctx' : Context)
    (h : check_expression env fuel ctx ae hint = some (e, ctx')) :
    sids ctx' = sids ctx := by
  induction fuel generalizing ctx ae hint e ctx' with
  | zero => exact Option.noConfusion h
  | succ fuel ih =>
    have hp : ScopePreserving (check_expression env fuel) :=
      fun c a hi f c2 hh => ih c a hi f c2 hh
    obtain ⟨loc, data⟩ := ae
    rw [check_expression] at h
    cases data with
    | access_ident i => exact check_expr_access_ident_sids ctx i e ctx' h
    | access_index a i =>
        exact check_expr_access_index_sids env _ hp ctx a i e ctx' h
    | access_field s f => exact check_expr_access_field_sids _ hp ctx s f e ctx' h
    | assertE c m => exact check_expr_assert_sids env _ hp ctx loc c m e ctx' h
    | assign op ind o v =>
        exact check_expr_assign_sids env _ hp ctx op ind o v e ctx' h
    | binarithm op l r =>
        exact check_expr_binarithm_sids env _ hp ctx op l r e ctx' h
    | binding first rest =>
        exact check_expr_binding_sids env _ hp ctx first rest e ctx' h
    | call lv args => exact check_expr_call_sids env _ hp ctx lv args e ctx' h
    | cast kind ty v => exact check_expr_cast_sids env _ hp ctx kind ty v e ctx' h
    | constant c => exact check_expr_constant_sids env _ hp ctx c hint e ctx' h
    | control isBreak label => exact check_expr_control_sids ctx isBreak label e ctx' h
    | deferE d => exact check_expr_defer_sids _ hp ctx d e ctx' h
    | forE label b c a body =>
        exact check_expr_for_sids _ hp ctx label b c a body e ctx' h
    | ifE c t f => exact check_expr_if_sids _ hp ctx c t f e ctx' h
    | list first rest => exact check_expr_list_sids _ hp ctx first rest e ctx' h
    | matchE => exact Option.noConfusion h
    | measure_len v => exact check_expr_measure_len_sids env _ hp ctx v e ctx' h
    | measure_size t =>
        have h2 : (some (Expression.mk (some builtin_type_size) false
            (.measure_size t), ctx) : Option (Expression × Context))
            = some (e, ctx') := h
        simp only [Option.some.injEq, Prod.mk.injEq] at h2
        rw [← h2.2]
    | measure_offset => exact Option.noConfusion h
    | returnE v => exact check_expr_return_sids env _ hp ctx v e ctx' h
    | slice o s f => exact check_expr_slice_sids _ hp ctx o s f e ctx' h
    | structE af nm fs =>
        exact check_expr_struct_sids env _ hp ctx af nm fs e ctx' h
    | switchE v cs => exact check_expr_switch_sids env _ hp ctx v cs e ctx' h
    | unarithm op o => exact check_expr_unarithm_sids _ hp ctx op o e ctx' h

/-- A `for` loop `for (true) break` as an AST expression. -/
def for_ast_c10 : AstExpression :=
  .mk loc_ex (.forE none none bool_true_ast none break_ast)

/-- An expression list whose only element is [`for_ast_c10`]. -/
def list_for_ast_c10 : AstExpression := .mk loc_ex (.list for_ast_c10 [])

/-- The node `check_expression` produces for [`list_for_ast_c10`]. -/
def expr_c10 : Expression :=
  .mk (some builtin_type_void) false
    (.list 1
      [ .mk (some builtin_type_void) false
          (.forE none 2 none
            (.mk (some builtin_type_bool) false (.constant (.bval true)))
            none
            (.mk none true (.control true none))) ])

/-- The context `check_expression` leaves after [`list_for_ast_c10`]:
the unit frame alone, with two scope identities consumed by the list
and for scopes that were pushed and popped. -/
def ctx_c10 : Context := ⟨[frame_unit], 3, false, 0, none, none⟩

/-- Witness for C10: checking a list containing a for loop pushes two
scopes and pops both, so the final scope stack equals the initial
one. -/
theorem c10_scope_restored_witness :
    check_expression env_ex 9 ctx_unit list_for_ast_c10 none
      = some (expr_c10, ctx_c10)
    ∧ sids ctx_c10 = sids ctx_unit :=
  ⟨rfl,
   c10_scope_restored env_ex 9 ctx_unit list_for_ast_c10 none expr_c10 ctx_c10
     rfl⟩
